import Mathlib

/-!
Shallow embedding of the laserio-backend catalog/e-commerce core:
the category/product schema and count-maintenance triggers of the SQL
initialization script, and the Express route handlers for categories,
products and orders.  Strings are modelled as `List Char`; SQL `LIKE p || '/%'`
and `regexp_replace(path, '^' || p, q)` are modelled as literal prefix tests
and literal prefix replacement, which is their behaviour whenever the paths
involved contain no SQL/regex metacharacters.  Timestamps
(`created_at`/`updated_at`) and the JSONB image gallery are not modelled: no
verified property mentions them.
-/

namespace Laserio

/-- Strings of the JS/SQL source, modelled as lists of characters. -/
abbrev Str := List Char

/-- Conversion from Lean string literals to the model's strings. -/
def str (s : String) : Str := s.data

/-- A row of the `categories` table (columns of the init schema plus the
`description` column used by the admin routes). -/
structure Category where
  id : Nat
  name : Str
  slug : Str
  parent_id : Option Nat
  path : Str
  is_active : Bool
  featured_only : Bool
  desc_product_count : Int
  sort_order : Int
  description : Option Str
  deriving DecidableEq

/-- A row of the `products` table (the columns the verified claims touch;
`gallery` and the timestamps are omitted). -/
structure Product where
  id : Nat
  name : Str
  slug : Str
  sku : Option Str
  price : Int
  is_active : Bool
  is_featured : Bool
  category_id : Nat
  primary_image_url : Option Str
  doc_url : Option Str
  doc_meta : Option Str
  content_html : Option Str
  specs_html : Option Str
  has_docs : Bool
  deriving DecidableEq

/-- `SELECT * FROM categories WHERE id = i` (ids are unique in the schema). -/
def findCat (cats : List Category) (i : Nat) : Option Category :=
  cats.find? (fun c => c.id == i)

/-- `SELECT * FROM products WHERE id = i`. -/
def findProd (prods : List Product) (i : Nat) : Option Product :=
  prods.find? (fun p => p.id == i)

/-- Path of a parentless category: ``root/${slug}`` (admin routes). -/
def rootPath (slug : Str) : Str := str "root/" ++ slug

/-- Path of a child category: ``${parent.path}/${slug}`` (admin routes). -/
def childPath (parentPath slug : Str) : Str := parentPath ++ '/' :: slug

/-- SQL function `inc_desc_product_count_by_path(cat_path, delta)`:
`UPDATE categories c SET desc_product_count = GREATEST(0, desc_product_count + delta)
WHERE (cat_path = c.path OR cat_path LIKE c.path || '/%')`. -/
def incDescProductCountByPath (cats : List Category) (catPath : Str) (delta : Int) :
    List Category :=
  cats.map fun c =>
    if catPath == c.path || (c.path ++ ['/']).isPrefixOf catPath then
      { c with desc_product_count := max 0 (c.desc_product_count + delta) }
    else c

/-- The whole database state the SQL triggers act on. -/
structure DB where
  cats : List Category
  prods : List Product
  deriving DecidableEq

/-- The ground-truth count that `recalc_desc_product_counts` assigns to one
category: active products whose owning category's path equals `c.path` or is
below `c.path || '/%'`. -/
def recalcCount (db : DB) (c : Category) : Int :=
  ((db.prods.filter fun p =>
      p.is_active &&
        match findCat db.cats p.category_id with
        | some pc => pc.path == c.path || (c.path ++ ['/']).isPrefixOf pc.path
        | none => false).length : Int)

/-- SQL function `recalc_desc_product_counts()`: full recompute of every
category's `desc_product_count` from current product/category state. -/
def recalcDescProductCounts (db : DB) : DB :=
  { db with cats := db.cats.map fun c => { c with desc_product_count := recalcCount db c } }

/-- `INSERT` on `products` plus the `AFTER INSERT` branch of
`trg_products_update_category_counts`: when the new row is active, bump the
count along its category's ancestor chain. -/
def trgProductInsert (db : DB) (p : Product) : DB :=
  let db' : DB := { db with prods := db.prods ++ [p] }
  if p.is_active then
    match findCat db'.cats p.category_id with
    | some c => { db' with cats := incDescProductCountByPath db'.cats c.path 1 }
    | none => db'
  else db'

/-- `UPDATE` of the `products` row with `newP.id` plus the `AFTER UPDATE`
branch of `trg_products_update_category_counts`: an activity flip adjusts by
±1, and a category change of an (afterwards) active product moves a count from
the old chain to the new one.  Both paths are read before any adjustment. -/
def productUpdateRow (db : DB) (newP : Product) : DB :=
  match findProd db.prods newP.id with
  | none => db
  | some oldP =>
    let prods := db.prods.map fun p => if p.id == newP.id then newP else p
    let oldCatPath := (findCat db.cats oldP.category_id).map (·.path)
    let newCatPath := (findCat db.cats newP.category_id).map (·.path)
    let cats₁ :=
      if oldP.is_active != newP.is_active then
        if newP.is_active then
          match newCatPath with
          | some pp => incDescProductCountByPath db.cats pp 1
          | none => db.cats
        else
          match oldCatPath with
          | some pp => incDescProductCountByPath db.cats pp (-1)
          | none => db.cats
      else db.cats
    let cats₂ :=
      if newP.category_id != oldP.category_id && newP.is_active then
        let c := match oldCatPath with
          | some pp => incDescProductCountByPath cats₁ pp (-1)
          | none => cats₁
        match newCatPath with
        | some pp => incDescProductCountByPath c pp 1
        | none => c
      else cats₁
    { cats := cats₂, prods := prods }

/-- `DELETE` on `products` plus the `AFTER DELETE` branch of
`trg_products_update_category_counts`: a hard delete of an active row
decrements along the old category's ancestor chain. -/
def trgProductDelete (db : DB) (pid : Nat) : DB :=
  match findProd db.prods pid with
  | none => db
  | some oldP =>
    let db' : DB := { db with prods := db.prods.filter fun p => !(p.id == pid) }
    if oldP.is_active then
      match findCat db'.cats oldP.category_id with
      | some c => { db' with cats := incDescProductCountByPath db'.cats c.path (-1) }
      | none => db'
    else db'

/-! ### C6: AdjustAlongAncestry -/

theorem incDescProductCountByPath_getElem (cats : List Category) (catPath : Str)
    (delta : Int) (i : Nat) :
    (incDescProductCountByPath cats catPath delta)[i]? =
      (cats[i]?).map fun c =>
        if catPath == c.path || (c.path ++ ['/']).isPrefixOf catPath then
          { c with desc_product_count := max 0 (c.desc_product_count + delta) }
        else c := by
  simp [incDescProductCountByPath]

theorem incDescProductCountByPath_nonneg (cats : List Category) (catPath : Str)
    (delta : Int) (h : ∀ c ∈ cats, 0 ≤ c.desc_product_count) :
    ∀ c ∈ incDescProductCountByPath cats catPath delta, 0 ≤ c.desc_product_count := by
  intro c hc
  rcases List.mem_map.mp hc with ⟨c₀, hc₀, rfl⟩
  by_cases hb : (catPath == c₀.path || (c₀.path ++ ['/']).isPrefixOf catPath) = true
  · simp [hb, le_max_iff]
  · simp [hb]
    exact h c₀ hc₀

/-- C6: `inc_desc_product_count_by_path(categoryPath, delta)` updates exactly
the categories whose path equals `categoryPath` or is a `/`-prefix of it (the
node and its ancestors), setting each to `max 0 (count + delta)` and leaving
every other row unchanged; and starting from nonnegative counts, no sequence
of such adjustments drives any count below zero. -/
theorem adjustAlongAncestry_spec (cats : List Category) (catPath : Str) (delta : Int)
    (adjs : List (Str × Int)) (h : ∀ c ∈ cats, 0 ≤ c.desc_product_count) :
    (∀ i : Nat,
      (incDescProductCountByPath cats catPath delta)[i]? =
        (cats[i]?).map fun c =>
          if catPath == c.path || (c.path ++ ['/']).isPrefixOf catPath then
            { c with desc_product_count := max 0 (c.desc_product_count + delta) }
          else c) ∧
    (∀ c ∈ adjs.foldl (fun cs pd => incDescProductCountByPath cs pd.1 pd.2) cats,
        0 ≤ c.desc_product_count) := by
  refine ⟨fun i => incDescProductCountByPath_getElem cats catPath delta i, ?_⟩
  induction adjs generalizing cats with
  | nil => exact h
  | cons pd tl ih =>
    exact ih _ (incDescProductCountByPath_nonneg cats pd.1 pd.2 h)

/-- Concrete state for exercising `adjustAlongAncestry_spec`. -/
def c6Cats : List Category :=
  [{ id := 1, name := str "Electronics", slug := str "electronics", parent_id := none,
     path := str "root/electronics", is_active := true, featured_only := false,
     desc_product_count := 1, sort_order := 0, description := none },
   { id := 2, name := str "Laptops", slug := str "laptops", parent_id := some 1,
     path := str "root/electronics/laptops", is_active := true, featured_only := false,
     desc_product_count := 0, sort_order := 0, description := none }]

theorem adjustAlongAncestry_spec_witness :
    (∀ c ∈ c6Cats, 0 ≤ c.desc_product_count) ∧
    ((∀ i : Nat,
      (incDescProductCountByPath c6Cats (str "root/electronics/laptops") 1)[i]? =
        ((c6Cats)[i]?).map fun c =>
          if str "root/electronics/laptops" == c.path
              || (c.path ++ ['/']).isPrefixOf (str "root/electronics/laptops") then
            { c with desc_product_count := max 0 (c.desc_product_count + 1) }
          else c) ∧
    (∀ c ∈ [(str "root/electronics/laptops", (1 : Int)),
            (str "root/electronics", (-5 : Int))].foldl
        (fun cs pd => incDescProductCountByPath cs pd.1 pd.2) c6Cats,
        0 ≤ c.desc_product_count)) :=
  ⟨by decide, adjustAlongAncestry_spec c6Cats (str "root/electronics/laptops") 1
    [(str "root/electronics/laptops", (1 : Int)), (str "root/electronics", (-5 : Int))]
    (by decide)⟩

/-! ### C1: incremental counts versus full recompute -/

/-- Category `root/a` holding one active and one inactive product. -/
def c1CatA : Category :=
  { id := 1, name := str "A", slug := str "a", parent_id := none, path := str "root/a",
    is_active := true, featured_only := false, desc_product_count := 1, sort_order := 0,
    description := none }

/-- Category `root/b`, initially empty. -/
def c1CatB : Category :=
  { id := 2, name := str "B", slug := str "b", parent_id := none, path := str "root/b",
    is_active := true, featured_only := false, desc_product_count := 0, sort_order := 0,
    description := none }

/-- An active product sitting in category 1. -/
def c1P1 : Product :=
  { id := 1, name := str "P1", slug := str "p1", sku := none, price := 100,
    is_active := true, is_featured := false, category_id := 1, primary_image_url := none,
    doc_url := none, doc_meta := none, content_html := none, specs_html := none,
    has_docs := false }

/-- An inactive product sitting in category 1. -/
def c1P2 : Product :=
  { id := 2, name := str "P2", slug := str "p2", sku := none, price := 200,
    is_active := false, is_featured := false, category_id := 1, primary_image_url := none,
    doc_url := none, doc_meta := none, content_html := none, specs_html := none,
    has_docs := false }

/-- Starting state whose stored counts agree with the full recompute. -/
def c1Db : DB := { cats := [c1CatA, c1CatB], prods := [c1P1, c1P2] }

/-- The state after updating product 2 to be active and owned by category 2
in a single `UPDATE` (an is_active false→true flip combined with a
category change). -/
def c1Db' : DB := productUpdateRow c1Db { c1P2 with is_active := true, category_id := 2 }

/-- C1 (code bug): the stored counts start in agreement with
`recalc_desc_product_counts` (first conjunct), yet after a single product
update that both flips `is_active` false→true and changes `category_id`, the
trigger `trg_products_update_category_counts` fires both its flip branch and
its category-change branch, netting +2 on the new chain and −1 on the old one:
the incremental counts become A = 0, B = 2 while the full recompute yields
A = 1, B = 1.  The incrementally maintained counts drift from ground truth,
contradicting the count-correctness invariant. -/
theorem c1_flip_move_drifts :
    recalcDescProductCounts c1Db = c1Db ∧
    (findCat c1Db'.cats 1).map (·.desc_product_count) = some 0 ∧
    (findCat c1Db'.cats 2).map (·.desc_product_count) = some 2 ∧
    (findCat (recalcDescProductCounts c1Db').cats 1).map (·.desc_product_count) = some 1 ∧
    (findCat (recalcDescProductCounts c1Db').cats 2).map (·.desc_product_count) = some 1 := by
  decide

/-! ### Admin product routes (part_002) -/

/-- Error outcomes of the admin routes (transport codes abstracted away). -/
inductive AdminErr where
  | requiredFields
  | duplicate
  | notFound
  | parentNotFound
  | nameSlugRequired
  | slugExists
  | fkViolation
  deriving DecidableEq

/-- A JSON request body for the admin product routes; `none` models an
absent-or-null field (the routes' destructuring defaults and `??` treat the
two alike). -/
structure ProductBody where
  name : Option Str := none
  slug : Option Str := none
  sku : Option Str := none
  price : Option Int := none
  is_active : Option Bool := none
  is_featured : Option Bool := none
  category_id : Option Nat := none
  primary_image_url : Option Str := none
  doc_url : Option Str := none
  doc_meta : Option Str := none
  content_html : Option Str := none
  specs_html : Option Str := none
  deriving DecidableEq

/-- Fresh id for an inserted product row (`SERIAL` primary key). -/
def nextProdId (db : DB) : Nat := (db.prods.map (·.id)).foldr max 0 + 1

/-- `POST /admin/products`: requires truthy `name`, `slug`, integer `price`
and truthy `category_id`; rejects a duplicate slug/sku (unique constraints)
and a dangling `category_id` (foreign key); inserts the row — note the insert
column list does not include `has_docs`, so the row gets the schema default
`false` whatever `doc_url` was supplied — and fires the insert trigger. -/
def productCreate (db : DB) (b : ProductBody) : Except AdminErr DB :=
  match b.name, b.slug, b.price, b.category_id with
  | some name, some slug, some price, some cid =>
    if name.isEmpty || slug.isEmpty || cid == 0 then .error .requiredFields
    else if db.prods.any (fun p => p.slug == slug || (b.sku.isSome && p.sku == b.sku)) then
      .error .duplicate
    else if (findCat db.cats cid).isNone then .error .fkViolation
    else .ok (trgProductInsert db
      { id := nextProdId db, name := name, slug := slug, sku := b.sku, price := price,
        is_active := b.is_active.getD true, is_featured := b.is_featured.getD false,
        category_id := cid, primary_image_url := b.primary_image_url,
        doc_url := b.doc_url, doc_meta := b.doc_meta, content_html := b.content_html,
        specs_html := b.specs_html, has_docs := false })
  | _, _, _, _ => .error .requiredFields

/-- `PUT /admin/products/:id` (full replacement): same required-field rule as
create; every listed column is overwritten from the body (absent optional
fields become null), but `has_docs` is not in the `SET` list and keeps its old
value; the update trigger fires. -/
def productPut (db : DB) (pid : Nat) (b : ProductBody) : Except AdminErr DB :=
  match b.name, b.slug, b.price, b.category_id with
  | some name, some slug, some price, some cid =>
    if pid == 0 || name.isEmpty || slug.isEmpty || cid == 0 then .error .requiredFields
    else
      match findProd db.prods pid with
      | none => .error .notFound
      | some oldP =>
        if db.prods.any (fun p =>
            !(p.id == pid) && (p.slug == slug || (b.sku.isSome && p.sku == b.sku))) then
          .error .duplicate
        else if (findCat db.cats cid).isNone then .error .fkViolation
        else .ok (productUpdateRow db
          { id := pid, name := name, slug := slug, sku := b.sku, price := price,
            is_active := b.is_active.getD true, is_featured := b.is_featured.getD false,
            category_id := cid, primary_image_url := b.primary_image_url,
            doc_url := b.doc_url, doc_meta := b.doc_meta, content_html := b.content_html,
            specs_html := b.specs_html, has_docs := oldP.has_docs })
  | _, _, _, _ => .error .requiredFields

/-- `PATCH /admin/products/:id` (partial update): body fields are layered over
the stored row with `??`, then the same full `UPDATE` as `productPut` runs
(again without touching `has_docs`). -/
def productPatch (db : DB) (pid : Nat) (b : ProductBody) : Except AdminErr DB :=
  if pid == 0 then .error .requiredFields
  else
    match findProd db.prods pid with
    | none => .error .notFound
    | some oldP =>
      let name := b.name.getD oldP.name
      let slug := b.slug.getD oldP.slug
      let sku := match b.sku with | some s => some s | none => oldP.sku
      let price := b.price.getD oldP.price
      let isAct := b.is_active.getD oldP.is_active
      let isFeat := b.is_featured.getD oldP.is_featured
      let cid := b.category_id.getD oldP.category_id
      let img := match b.primary_image_url with | some s => some s | none => oldP.primary_image_url
      let docUrl := match b.doc_url with | some s => some s | none => oldP.doc_url
      let docMeta := match b.doc_meta with | some s => some s | none => oldP.doc_meta
      let contentHtml := match b.content_html with | some s => some s | none => oldP.content_html
      let specsHtml := match b.specs_html with | some s => some s | none => oldP.specs_html
      if name.isEmpty || slug.isEmpty || cid == 0 then .error .requiredFields
      else if db.prods.any (fun p =>
          !(p.id == pid) && (p.slug == slug || (sku.isSome && p.sku == sku))) then
        .error .duplicate
      else if (findCat db.cats cid).isNone then .error .fkViolation
      else .ok (productUpdateRow db
        { id := pid, name := name, slug := slug, sku := sku, price := price,
          is_active := isAct, is_featured := isFeat, category_id := cid,
          primary_image_url := img, doc_url := docUrl, doc_meta := docMeta,
          content_html := contentHtml, specs_html := specsHtml,
          has_docs := oldP.has_docs })

/-- `PATCH /admin/products/:id/doc`: sets `doc_url`/`doc_meta` and
`has_docs = (doc_url IS NOT NULL)`. -/
def productDocPatch (db : DB) (pid : Nat) (docUrl docMeta : Option Str) :
    Except AdminErr DB :=
  match findProd db.prods pid with
  | none => .error .notFound
  | some oldP => .ok (productUpdateRow db
      { oldP with doc_url := docUrl, doc_meta := docMeta, has_docs := docUrl.isSome })

/-- `DELETE /admin/products/:id/doc`: clears the document and `has_docs`. -/
def productDocClear (db : DB) (pid : Nat) : Except AdminErr DB :=
  match findProd db.prods pid with
  | none => .error .notFound
  | some oldP => .ok (productUpdateRow db
      { oldP with doc_url := none, doc_meta := none, has_docs := false })

/-- `POST /admin/products/:id/doc` (PDF upload): stores the uploaded file's
url and metadata and sets `has_docs = TRUE`. -/
def productDocUpload (db : DB) (pid : Nat) (url meta : Str) : Except AdminErr DB :=
  match findProd db.prods pid with
  | none => .error .notFound
  | some oldP => .ok (productUpdateRow db
      { oldP with doc_url := some url, doc_meta := some meta, has_docs := true })

/-- `DELETE /admin/products/:id`: the public delete is
`UPDATE products SET is_active=false WHERE id=$1` — a soft delete that only
flips the active flag (firing the update trigger), never removing the row. -/
def productSoftDelete (db : DB) (pid : Nat) : Except AdminErr DB :=
  match findProd db.prods pid with
  | none => .error .notFound
  | some oldP => .ok (productUpdateRow db { oldP with is_active := false })

/-- `GET /admin/products/:id`: reads the row by id with no is_active filter. -/
def adminGetProduct (db : DB) (pid : Nat) : Option Product :=
  findProd db.prods pid

/-! ### C8: has_docs versus doc_url -/

/-- A category for the product-creation scenario. -/
def c8Cat : Category :=
  { id := 1, name := str "A", slug := str "a", parent_id := none, path := str "root/a",
    is_active := true, featured_only := false, desc_product_count := 0, sort_order := 0,
    description := none }

/-- Database holding just that category. -/
def c8Db : DB := { cats := [c8Cat], prods := [] }

/-- A create body that supplies a non-null `doc_url`. -/
def c8Body : ProductBody :=
  { name := some (str "Laser"), slug := some (str "laser"), price := some 100,
    category_id := some 1, doc_url := some (str "/uploads/manual.pdf") }

/-- C8 (code bug): `POST /admin/products` accepts a non-null `doc_url` but its
insert column list omits `has_docs`, so the stored row has
`doc_url = '/uploads/manual.pdf'` with `has_docs = false` — violating the
invariant `has_docs ⟺ doc_url non-null` that the dedicated doc endpoints
(`PATCH/POST/DELETE …/doc`) do maintain. -/
theorem c8_create_ignores_doc_url :
    (productCreate c8Db c8Body).map (fun db' => db'.prods.map fun p => (p.doc_url, p.has_docs))
      = .ok [(some (str "/uploads/manual.pdf"), false)] := by
  rfl

/-! ### C10: product delete is a soft delete -/

/-- C10: for an existing product id, `DELETE /admin/products/:id` succeeds and
only flips `is_active` to false: the table keeps the same number of rows, the
row is still found by id (and by the admin by-id read) with every modelled
field other than `is_active` unchanged, every other row survives untouched,
and the category counts change exactly by the lifecycle hook's −1 along the
old category's ancestor chain when the product was active (and not at all when
it was already inactive). -/
theorem productSoftDelete_spec (db : DB) (pid : Nat) (p : Product)
    (hp : findProd db.prods pid = some p) :
    ∃ db', productSoftDelete db pid = .ok db' ∧
      db'.prods.length = db.prods.length ∧
      findProd db'.prods pid = some { p with is_active := false } ∧
      adminGetProduct db' pid = some { p with is_active := false } ∧
      (∀ q ∈ db.prods, q.id ≠ pid → q ∈ db'.prods) ∧
      db'.cats = (if p.is_active then
          match findCat db.cats p.category_id with
          | some c => incDescProductCountByPath db.cats c.path (-1)
          | none => db.cats
        else db.cats) := by
  have hpid : p.id = pid := by
    have := List.find?_some hp
    simpa using this
  refine ⟨productUpdateRow db { p with is_active := false }, ?_, ?_⟩
  · simp [productSoftDelete, hp]
  · have hfind : findProd db.prods ({ p with is_active := false } : Product).id = some p := by
      simpa [hpid] using hp
    constructor
    · simp [productUpdateRow, hfind]
    constructor
    · show findProd ((productUpdateRow db { p with is_active := false }).prods) pid = _
      have hmap : (productUpdateRow db { p with is_active := false }).prods =
          db.prods.map fun q =>
            if q.id == ({ p with is_active := false } : Product).id then
              { p with is_active := false } else q := by
        simp [productUpdateRow, hfind]
      rw [hmap, findProd, List.find?_map]
      have hpred : ((fun (q : Product) => q.id == pid) ∘ fun q =>
          if q.id == ({ p with is_active := false } : Product).id then
            { p with is_active := false } else q) = fun q => q.id == pid := by
        funext q
        by_cases hq : q.id = p.id
        · simp [hq, hpid]
        · simp [hq, fun h => hq (by simpa [hpid] using h)]
      rw [hpred]
      have : db.prods.find? (fun q => q.id == pid) = some p := hp
      simp [this, hpid]
    constructor
    · show adminGetProduct (productUpdateRow db { p with is_active := false }) pid = _
      have hmap : (productUpdateRow db { p with is_active := false }).prods =
          db.prods.map fun q =>
            if q.id == ({ p with is_active := false } : Product).id then
              { p with is_active := false } else q := by
        simp [productUpdateRow, hfind]
      rw [adminGetProduct, hmap, findProd, List.find?_map]
      have hpred : ((fun (q : Product) => q.id == pid) ∘ fun q =>
          if q.id == ({ p with is_active := false } : Product).id then
            { p with is_active := false } else q) = fun q => q.id == pid := by
        funext q
        by_cases hq : q.id = p.id
        · simp [hq, hpid]
        · simp [hq, fun h => hq (by simpa [hpid] using h)]
      rw [hpred]
      have : db.prods.find? (fun q => q.id == pid) = some p := hp
      simp [this, hpid]
    constructor
    · intro q hq hqid
      have hmap : (productUpdateRow db { p with is_active := false }).prods =
          db.prods.map fun r =>
            if r.id == ({ p with is_active := false } : Product).id then
              { p with is_active := false } else r := by
        simp [productUpdateRow, hfind]
      rw [hmap]
      refine List.mem_map.mpr ⟨q, hq, ?_⟩
      have : (q.id == p.id) = false := by
        simp [hpid]
        exact hqid
      simp [this]
    · by_cases hact : p.is_active
      · simp only [productUpdateRow, hfind, hact]
        cases hc : findCat db.cats p.category_id with
        | none => simp [hc, hact]
        | some c => simp [hc, hact]
      · simp only [productUpdateRow, hfind]
        have : p.is_active = false := by simpa using hact
        cases hc : findCat db.cats p.category_id with
        | none => simp [hc, this]
        | some c => simp [hc, this]

/-- Database for exercising the soft-delete theorem. -/
def c10Db : DB :=
  { cats := [{ id := 1, name := str "A", slug := str "a", parent_id := none,
               path := str "root/a", is_active := true, featured_only := false,
               desc_product_count := 1, sort_order := 0, description := none }],
    prods := [{ id := 7, name := str "P", slug := str "p", sku := none, price := 50,
                is_active := true, is_featured := false, category_id := 1,
                primary_image_url := none, doc_url := none, doc_meta := none,
                content_html := none, specs_html := none, has_docs := false }] }

theorem productSoftDelete_spec_witness :
    (∃ p, findProd c10Db.prods 7 = some p) ∧
    (∃ db', productSoftDelete c10Db 7 = .ok db' ∧
      db'.prods.length = c10Db.prods.length ∧
      findProd db'.prods 7 = some { (c10Db.prods.head (by decide)) with is_active := false } ∧
      adminGetProduct db' 7 = some { (c10Db.prods.head (by decide)) with is_active := false } ∧
      (∀ q ∈ c10Db.prods, q.id ≠ 7 → q ∈ db'.prods) ∧
      db'.cats = (if (c10Db.prods.head (by decide)).is_active then
          match findCat c10Db.cats (c10Db.prods.head (by decide)).category_id with
          | some c => incDescProductCountByPath c10Db.cats c.path (-1)
          | none => c10Db.cats
        else c10Db.cats)) :=
  ⟨⟨c10Db.prods.head (by decide), by decide⟩,
    productSoftDelete_spec c10Db 7 (c10Db.prods.head (by decide)) (by decide)⟩

/-! ### Admin category routes (part_002)

The category handlers read and write only the `categories` table; the
`AFTER UPDATE` recalc trigger additionally rewrites `desc_product_count`
(modelled above as `recalcDescProductCounts`), which no path/slug/parent
property depends on, so the category operations here are stated on the
category list alone. -/

/-- A JSON request body for the admin category routes; `none` models an
absent-or-null field. -/
structure CatBody where
  name : Option Str := none
  slug : Option Str := none
  parent_id : Option Nat := none
  is_active : Option Bool := none
  featured_only : Option Bool := none
  sort_order : Option Int := none
  description : Option Str := none
  deriving DecidableEq

/-- Fresh id for an inserted category row (`SERIAL` primary key). -/
def nextCatId (cats : List Category) : Nat := (cats.map (·.id)).foldr max 0 + 1

/-- `POST /admin/categories`: requires truthy `name` and `slug` (no other slug
validation exists); resolves the path from the parent's stored path (or
`root/slug`; a falsy `parent_id` of 0 skips the lookup and then trips the
foreign key); rejects a duplicate slug (unique constraint); inserts the row
with `desc_product_count` left at its schema default 0. -/
def categoryCreate (cats : List Category) (b : CatBody) : Except AdminErr (List Category) :=
  match b.name, b.slug with
  | some name, some slug =>
    if name.isEmpty || slug.isEmpty then .error .nameSlugRequired
    else
      let pathRes : Except AdminErr Str :=
        match b.parent_id with
        | some pid =>
          if pid == 0 then .ok (rootPath slug)
          else
            match findCat cats pid with
            | some pr => .ok (childPath pr.path slug)
            | none => .error .parentNotFound
        | none => .ok (rootPath slug)
      match pathRes with
      | .error e => .error e
      | .ok path =>
        if cats.any (fun c => c.slug == slug) then .error .duplicate
        else if (match b.parent_id with
                 | some pid => (findCat cats pid).isNone
                 | none => false) then .error .fkViolation
        else .ok (cats ++
          [{ id := nextCatId cats, name := name, slug := slug, parent_id := b.parent_id,
             path := path, is_active := b.is_active.getD true,
             featured_only := b.featured_only.getD false, desc_product_count := 0,
             sort_order := b.sort_order.getD 0, description := b.description }])
  | _, _ => .error .nameSlugRequired

/-- `PUT /admin/categories/:id` (rename/move): layers body fields over the
stored row with `??`; requires truthy resolved `name`/`slug`; checks slug
uniqueness only when the slug changed; recomputes the path from the (new)
parent's stored path exactly as create does; updates the row; and when the
path changed, rewrites the whole old subtree with
`SET path = regexp_replace(path, '^' || oldPath, newPath)
 WHERE path = oldPath OR path LIKE oldPath || '/%'` —
modelled as literal prefix replacement on the rows the `WHERE` selects. -/
def categoryUpdate (cats : List Category) (cid : Nat) (b : CatBody) :
    Except AdminErr (List Category) :=
  match findCat cats cid with
  | none => .error .notFound
  | some oldCat =>
    let name := b.name.getD oldCat.name
    let slug := b.slug.getD oldCat.slug
    let parentId : Option Nat := match b.parent_id with
      | some pid => some pid
      | none => oldCat.parent_id
    let isActive := b.is_active.getD oldCat.is_active
    let featuredOnly := b.featured_only.getD oldCat.featured_only
    let sortOrder := b.sort_order.getD oldCat.sort_order
    let descr : Option Str := match b.description with
      | some d => some d
      | none => oldCat.description
    if name.isEmpty || slug.isEmpty then .error .nameSlugRequired
    else if !(slug == oldCat.slug) && cats.any (fun c => c.slug == slug && !(c.id == cid)) then
      .error .slugExists
    else
      let newPathRes : Except AdminErr Str :=
        match parentId with
        | some pid =>
          match findCat cats pid with
          | some pr => .ok (childPath pr.path slug)
          | none => .error .parentNotFound
        | none => .ok (rootPath slug)
      match newPathRes with
      | .error e => .error e
      | .ok newPath =>
        let cats₁ := cats.map fun c =>
          if c.id == cid then
            { c with name := name, slug := slug, parent_id := parentId, path := newPath,
                     is_active := isActive, featured_only := featuredOnly,
                     sort_order := sortOrder, description := descr }
          else c
        let cats₂ :=
          if oldCat.path == newPath then cats₁
          else cats₁.map fun c =>
            if c.path == oldCat.path || (oldCat.path ++ ['/']).isPrefixOf c.path then
              { c with path := newPath ++ c.path.drop oldCat.path.length }
            else c
        .ok cats₂

/-! ### C9: slug validation on category create/update -/

/-- C9 (counterexample): the claim says a slug containing `/` must be rejected
with a validation error and no row created; but `POST /admin/categories` with
slug `a/b` succeeds and persists a row whose path embeds the slash verbatim
(`root/a/b`). -/
theorem c9_slash_slug_accepted :
    categoryCreate [] { name := some (str "A"), slug := some (str "a/b") } =
      .ok [{ id := 1, name := str "A", slug := str "a/b", parent_id := none,
             path := str "root/a/b", is_active := true, featured_only := false,
             desc_product_count := 0, sort_order := 0, description := none }] := by
  rfl

/-- C9 (amended): category create and rename/move reject an empty or missing
slug with the `NAME_SLUG_REQUIRED` validation error (returning no new state,
so no row is created or modified), but slugs containing `/` are accepted —
no `InvalidSlug`-style check exists. -/
theorem categorySlug_empty_rejected (cats : List Category) (b : CatBody) (cid : Nat) :
    (b.slug = none ∨ b.slug = some [] → categoryCreate cats b = .error .nameSlugRequired) ∧
    (b.slug = some [] → ∀ c, findCat cats cid = some c →
        categoryUpdate cats cid b = .error .nameSlugRequired) := by
  constructor
  · rintro (h | h) <;> cases hn : b.name <;> simp [categoryCreate, hn, h]
  · intro h c hc
    simp [categoryUpdate, hc, h]

theorem categorySlug_empty_rejected_witness :
    ((some [] : Option Str) = none ∨ (some [] : Option Str) = some [] →
        categoryCreate c6Cats { name := some (str "X"), slug := some [] } =
          .error .nameSlugRequired) ∧
    ((some [] : Option Str) = some [] → ∀ c, findCat c6Cats 1 = some c →
        categoryUpdate c6Cats 1 { name := some (str "X"), slug := some [] } =
          .error .nameSlugRequired) :=
  categorySlug_empty_rejected c6Cats { name := some (str "X"), slug := some [] } 1

/-! ### Order placement (public.js `POST /orders`) -/

/-- A row of the `orders` table (timestamps omitted; the uuid primary key is
modelled by a counter-issued Nat). -/
structure Order where
  id : Nat
  customer_name : Option Str
  email : Option Str
  phone : Option Str
  comment : Option Str
  address_json : Option Str
  total_amount : Int
  status : Str
  idempotency_key : Option Str
  deriving DecidableEq

/-- A row of the `order_items` table (its own serial id omitted). -/
structure OrderItem where
  order_id : Nat
  product_id : Nat
  qty : Int
  price_at_purchase : Int
  deriving DecidableEq

/-- One entry of the request's `items` array; `none` models an absent field
(`Number(undefined)` is `NaN`).  Quantities are JS numbers, modelled as
rationals so that the `Number.isInteger` check is expressible. -/
structure OrderItemReq where
  product_id : Option Nat := none
  qty : Option ℚ := none
  deriving DecidableEq

/-- The `POST /orders` request body; `items = none` models a missing or
non-array `items` field. -/
structure OrderReq where
  idempotency_key : Option Str := none
  customer_name : Option Str := none
  email : Option Str := none
  phone : Option Str := none
  comment : Option Str := none
  address_json : Option Str := none
  items : Option (List OrderItemReq) := none
  deriving DecidableEq

/-- Database state for the order routes. -/
structure OrderDB where
  prods : List Product
  orders : List Order
  order_items : List OrderItem
  nextOrderId : Nat
  deriving DecidableEq

/-- Error outcomes of `POST /orders`. -/
inductive OrderErr where
  | itemsRequired
  | invalidProduct
  | invalidQty
  deriving DecidableEq

/-- Success outcomes of `POST /orders`. -/
inductive OrderResult where
  | duplicate (orderId : Nat)
  | created (orderId : Nat) (total : Int)
  deriving DecidableEq

/-- The batch product lookup of the order route: the handler collects
`Number(it.product_id)` over the items, drops falsy values (`NaN` from a
missing id, and 0), selects those rows, and reads the map.  A missing id or
the id 0 therefore never resolves. -/
def lookupProd (prods : List Product) (pidOpt : Option Nat) : Option Product :=
  match pidOpt with
  | none => none
  | some pid => if pid == 0 then none else findProd prods pid

/-- The validation loop of `POST /orders`, in item order: resolve the product
(fail `INVALID_PRODUCT` when unknown or inactive), then check
`Number(it.qty || 0)` is a positive integer (fail `INVALID_QTY`); on success
return the `(product_id, qty, price)` triples the insert loop persists — the
price is the one stored on the product row at this instant, never a
client-supplied value. -/
def validateItems (prods : List Product) : List OrderItemReq →
    Except OrderErr (List (Nat × Int × Int))
  | [] => .ok []
  | it :: rest =>
    match lookupProd prods it.product_id with
    | none => .error .invalidProduct
    | some p =>
      if !p.is_active then .error .invalidProduct
      else
        let q : ℚ := it.qty.getD 0
        if q.den = 1 ∧ 0 < q then
          match validateItems prods rest with
          | .ok tl => .ok ((it.product_id.getD 0, q.num, p.price) :: tl)
          | .error e => .error e
        else .error .invalidQty

/-- The idempotency lookup of `POST /orders`: with a truthy key, the first
stored order carrying that key (`SELECT id FROM orders WHERE idempotency_key=$1`,
at most one row by the unique constraint). -/
def dupOrder (db : OrderDB) (req : OrderReq) : Option Order :=
  match req.idempotency_key with
  | some k => if k.isEmpty then none
      else db.orders.find? (fun o => o.idempotency_key == some k)
  | none => none

/-- `POST /orders`: reject empty/missing items; short-circuit on a truthy,
already-recorded idempotency key with status `duplicate` and no writes;
otherwise validate, compute the total as Σ(stored unit price × qty), insert
the order header and then one line per item snapshotting its price. -/
def placeOrder (db : OrderDB) (req : OrderReq) : OrderDB × Except OrderErr OrderResult :=
  match req.items with
  | none => (db, .error .itemsRequired)
  | some items =>
    if items.isEmpty then (db, .error .itemsRequired)
    else
      match dupOrder db req with
      | some o => (db, .ok (.duplicate o.id))
      | none =>
        match validateItems db.prods items with
        | .error e => (db, .error e)
        | .ok entries =>
          let total : Int := (entries.map fun e => e.2.2 * e.2.1).sum
          let oid := db.nextOrderId
          let order : Order :=
            { id := oid, customer_name := req.customer_name, email := req.email,
              phone := req.phone, comment := req.comment, address_json := req.address_json,
              total_amount := total, status := str "new",
              idempotency_key := req.idempotency_key }
          let lines := entries.map fun e =>
            ({ order_id := oid, product_id := e.1, qty := e.2.1,
               price_at_purchase := e.2.2 } : OrderItem)
          ({ db with orders := db.orders ++ [order],
                     order_items := db.order_items ++ lines,
                     nextOrderId := db.nextOrderId + 1 },
           .ok (.created oid total))

/-! ### C3: idempotent order creation -/

/-- C3: when the request carries a (truthy) idempotency key already recorded
on a stored order and a non-empty items list, `POST /orders` answers with that
order's id and status `duplicate`, and the state — orders, order items, every
product row — is returned unchanged. -/
theorem placeOrder_duplicate_key (db : OrderDB) (req : OrderReq) (items : List OrderItemReq)
    (k : Str) (o : Order)
    (hitems : req.items = some items) (hne : items ≠ [])
    (hk : req.idempotency_key = some k) (hk0 : k ≠ [])
    (ho : db.orders.find? (fun o' => o'.idempotency_key == some k) = some o) :
    placeOrder db req = (db, .ok (.duplicate o.id)) := by
  have hempty : items.isEmpty = false := by
    cases items with
    | nil => exact absurd rfl hne
    | cons a l => rfl
  have hkempty : k.isEmpty = false := by
    cases k with
    | nil => exact absurd rfl hk0
    | cons a l => rfl
  simp [placeOrder, dupOrder, hitems, hempty, hk, hkempty, ho]

/-- Stored state for the idempotency scenario: order 3 recorded under key
`abc`. -/
def c3Db : OrderDB :=
  { prods := [{ id := 1, name := str "P", slug := str "p", sku := none, price := 100,
                is_active := true, is_featured := false, category_id := 1,
                primary_image_url := none, doc_url := none, doc_meta := none,
                content_html := none, specs_html := none, has_docs := false }],
    orders := [{ id := 3, customer_name := none, email := none, phone := none,
                 comment := none, address_json := none, total_amount := 100,
                 status := str "new", idempotency_key := some (str "abc") }],
    order_items := [{ order_id := 3, product_id := 1, qty := 1, price_at_purchase := 100 }],
    nextOrderId := 4 }

/-- A retry of the same order under the recorded key `abc`. -/
def c3Req : OrderReq :=
  { idempotency_key := some (str "abc"),
    items := some [{ product_id := some 1, qty := some 1 }] }

theorem placeOrder_duplicate_key_witness :
    (c3Req.items = some [{ product_id := some 1, qty := some 1 }] ∧
     ([({ product_id := some 1, qty := some 1 } : OrderItemReq)] ≠ []) ∧
     c3Req.idempotency_key = some (str "abc") ∧ str "abc" ≠ [] ∧
     c3Db.orders.find? (fun o' => o'.idempotency_key == some (str "abc")) =
       some (c3Db.orders.head (by decide))) ∧
    placeOrder c3Db c3Req = (c3Db, .ok (.duplicate (c3Db.orders.head (by decide)).id)) :=
  ⟨⟨rfl, by decide, rfl, by decide, by decide⟩,
    placeOrder_duplicate_key c3Db c3Req [{ product_id := some 1, qty := some 1 }]
      (str "abc") (c3Db.orders.head (by decide)) rfl (by decide) rfl (by decide) (by decide)⟩

/-! ### C4: PlaceOrder validation failures -/

/-- Whether an item's referenced product resolves to a stored, active row. -/
def itemProductOk (prods : List Product) (it : OrderItemReq) : Bool :=
  match lookupProd prods it.product_id with
  | some p => p.is_active
  | none => false

/-- Whether an item's quantity (`Number(it.qty || 0)`) is a positive integer. -/
def itemQtyOk (it : OrderItemReq) : Bool :=
  decide ((it.qty.getD 0).den = 1 ∧ 0 < it.qty.getD 0)

/-- Whether the request's idempotency key is truthy and already recorded. -/
def dupHit (db : OrderDB) (req : OrderReq) : Bool :=
  match req.idempotency_key with
  | some k => !k.isEmpty && db.orders.any (fun o => o.idempotency_key == some k)
  | none => false

theorem validateItems_error_of_bad (prods : List Product) :
    ∀ l : List OrderItemReq,
      (∃ it ∈ l, itemProductOk prods it = false ∨ itemQtyOk it = false) →
      ∃ e, validateItems prods l = .error e ∧ (e = .invalidProduct ∨ e = .invalidQty) := by
  intro l
  induction l with
  | nil => rintro ⟨it, h, -⟩; exact absurd h (List.not_mem_nil it)
  | cons hd tl ih =>
    intro hbad
    cases hl : lookupProd prods hd.product_id with
    | none => exact ⟨.invalidProduct, by simp [validateItems, hl], Or.inl rfl⟩
    | some p =>
      by_cases hact : p.is_active
      · by_cases hq : ((hd.qty.getD 0 : ℚ).den = 1 ∧ 0 < (hd.qty.getD 0 : ℚ))
        · have hhdok : itemProductOk prods hd = true ∧ itemQtyOk hd = true := by
            constructor
            · simp [itemProductOk, hl, hact]
            · simp [itemQtyOk, hq.1, hq.2]
          have htl : ∃ it ∈ tl, itemProductOk prods it = false ∨ itemQtyOk it = false := by
            rcases hbad with ⟨it, hmem, hor⟩
            rcases List.mem_cons.mp hmem with rfl | hmem'
            · rcases hor with h | h
              · rw [hhdok.1] at h; exact absurd h (by simp)
              · rw [hhdok.2] at h; exact absurd h (by simp)
            · exact ⟨it, hmem', hor⟩
          rcases ih htl with ⟨e, he, hor⟩
          exact ⟨e, by simp [validateItems, hl, hact, hq, he], hor⟩
        · exact ⟨.invalidQty, by simp [validateItems, hl, hact, hq], Or.inr rfl⟩
      · exact ⟨.invalidProduct, by simp [validateItems, hl, hact], Or.inl rfl⟩

theorem validateItems_invalidProduct (prods : List Product) :
    ∀ l : List OrderItemReq, validateItems prods l = .error .invalidProduct →
      ∃ it ∈ l, itemProductOk prods it = false := by
  intro l
  induction l with
  | nil => intro h; exact absurd h (by simp [validateItems])
  | cons hd tl ih =>
    intro h
    cases hl : lookupProd prods hd.product_id with
    | none => exact ⟨hd, List.mem_cons_self hd tl, by simp [itemProductOk, hl]⟩
    | some p =>
      by_cases hact : p.is_active
      · by_cases hq : ((hd.qty.getD 0 : ℚ).den = 1 ∧ 0 < (hd.qty.getD 0 : ℚ))
        · rw [validateItems] at h
          simp only [hl, hact, hq] at h
          cases hv : validateItems prods tl with
          | ok tlres => rw [hv] at h; simp at h
          | error e =>
            rw [hv] at h
            simp at h
            rcases ih (by rw [hv, h]) with ⟨it, hmem, hbad⟩
            exact ⟨it, List.mem_cons_of_mem hd hmem, hbad⟩
        · rw [validateItems] at h
          simp [hl, hact, hq] at h
      · exact ⟨hd, List.mem_cons_self hd tl, by simp [itemProductOk, hl, hact]⟩

theorem validateItems_invalidQty (prods : List Product) :
    ∀ l : List OrderItemReq, validateItems prods l = .error .invalidQty →
      ∃ it ∈ l, itemQtyOk it = false := by
  intro l
  induction l with
  | nil => intro h; exact absurd h (by simp [validateItems])
  | cons hd tl ih =>
    intro h
    cases hl : lookupProd prods hd.product_id with
    | none =>
      rw [validateItems] at h
      simp [hl] at h
    | some p =>
      by_cases hact : p.is_active
      · by_cases hq : ((hd.qty.getD 0 : ℚ).den = 1 ∧ 0 < (hd.qty.getD 0 : ℚ))
        · rw [validateItems] at h
          simp only [hl, hact, hq] at h
          cases hv : validateItems prods tl with
          | ok tlres => rw [hv] at h; simp at h
          | error e =>
            rw [hv] at h
            simp at h
            rcases ih (by rw [hv, h]) with ⟨it, hmem, hbad⟩
            exact ⟨it, List.mem_cons_of_mem hd hmem, hbad⟩
        · refine ⟨hd, List.mem_cons_self hd tl, ?_⟩
          simp only [itemQtyOk, decide_eq_false_iff_not]
          exact hq
      · rw [validateItems] at h
        simp [hl, hact] at h

theorem placeOrder_dup_none (db : OrderDB) (req : OrderReq) (h : dupHit db req = false) :
    dupOrder db req = none := by
  rw [dupOrder]
  cases hk : req.idempotency_key with
  | none => rfl
  | some k =>
    by_cases hke : k.isEmpty = true
    · simp [hke]
    · have hke' : k.isEmpty = false := by simpa using hke
      simp only [hke', Bool.false_eq_true, if_false, List.find?_eq_none]
      intro o ho
      rw [dupHit, hk] at h
      simp [hke'] at h
      intro hcontra
      exact h o ho (by simpa using hcontra)

/-- C4: `POST /orders` fails with `ITEMS_REQUIRED` when the items list is
missing or empty; every error outcome returns the state unchanged (no order
row, no order-item rows); and — absent an idempotency-key short-circuit — a
request containing an unknown/inactive product or a non-positive-integer
quantity fails with `INVALID_PRODUCT` or `INVALID_QTY`, each of those errors
being reported only when an offending item of that kind actually exists. -/
theorem placeOrder_validation (db : OrderDB) (req : OrderReq) :
    ((req.items = none ∨ req.items = some []) →
        placeOrder db req = (db, .error .itemsRequired)) ∧
    (∀ e, (placeOrder db req).2 = .error e → (placeOrder db req).1 = db) ∧
    (∀ l, req.items = some l → dupHit db req = false →
      ((∃ it ∈ l, itemProductOk db.prods it = false ∨ itemQtyOk it = false) →
          ∃ e, placeOrder db req = (db, .error e) ∧
            (e = .invalidProduct ∨ e = .invalidQty)) ∧
      ((placeOrder db req).2 = .error .invalidProduct →
          ∃ it ∈ l, itemProductOk db.prods it = false) ∧
      ((placeOrder db req).2 = .error .invalidQty →
          ∃ it ∈ l, itemQtyOk it = false)) := by
  refine ⟨?_, ?_, ?_⟩
  · rintro (h | h) <;> simp [placeOrder, h]
  · intro e
    simp only [placeOrder]
    split
    · simp
    · split
      · simp
      · split
        · simp
        · split <;> simp
  · intro l hl hdup
    have hdn := placeOrder_dup_none db req hdup
    cases l with
    | nil => simp [placeOrder, hl]
    | cons hd tl =>
      have hemp : (hd :: tl).isEmpty = false := rfl
      refine ⟨?_, ?_, ?_⟩
      · intro hbad
        rcases validateItems_error_of_bad db.prods (hd :: tl) hbad with ⟨e, he, hor⟩
        exact ⟨e, by simp [placeOrder, hl, hemp, hdn, he], hor⟩
      · intro herr
        cases hv : validateItems db.prods (hd :: tl) with
        | error e' =>
          have he' : e' = .invalidProduct := by
            simp only [placeOrder, hl, hemp, hdn, hv, Bool.false_eq_true, if_false] at herr
            simpa using herr
          exact validateItems_invalidProduct db.prods (hd :: tl) (by rw [hv, he'])
        | ok entries =>
          simp only [placeOrder, hl, hemp, hdn, hv, Bool.false_eq_true, if_false] at herr
          simp at herr
      · intro herr
        cases hv : validateItems db.prods (hd :: tl) with
        | error e' =>
          have he' : e' = .invalidQty := by
            simp only [placeOrder, hl, hemp, hdn, hv, Bool.false_eq_true, if_false] at herr
            simpa using herr
          exact validateItems_invalidQty db.prods (hd :: tl) (by rw [hv, he'])
        | ok entries =>
          simp only [placeOrder, hl, hemp, hdn, hv, Bool.false_eq_true, if_false] at herr
          simp at herr

/-- Items with an inactive product reference for the validation witness. -/
def c4Db : OrderDB :=
  { prods := [{ id := 1, name := str "P", slug := str "p", sku := none, price := 100,
                is_active := false, is_featured := false, category_id := 1,
                primary_image_url := none, doc_url := none, doc_meta := none,
                content_html := none, specs_html := none, has_docs := false }],
    orders := [], order_items := [], nextOrderId := 1 }

/-- A request referencing the inactive product. -/
def c4Req : OrderReq :=
  { items := some [{ product_id := some 1, qty := some 2 }] }

theorem placeOrder_validation_witness :
    (c4Req.items = some [{ product_id := some 1, qty := some 2 }] ∧
     dupHit c4Db c4Req = false ∧
     (∃ it ∈ [({ product_id := some 1, qty := some 2 } : OrderItemReq)],
        itemProductOk c4Db.prods it = false ∨ itemQtyOk it = false)) ∧
    (∃ e, placeOrder c4Db c4Req = (c4Db, .error e) ∧
      (e = .invalidProduct ∨ e = .invalidQty)) :=
  ⟨⟨rfl, by decide, by decide⟩,
    ((placeOrder_validation c4Db c4Req).2.2
      [{ product_id := some 1, qty := some 2 }] rfl (by decide)).1 (by decide)⟩

/-! ### C5: totals and price snapshots -/

/-- The unit price the order route reads for an item: the price stored on the
referenced product row (0 is never used — a failed lookup aborts the order). -/
def itemPrice (prods : List Product) (it : OrderItemReq) : Int :=
  match lookupProd prods it.product_id with
  | some p => p.price
  | none => 0

theorem validateItems_ok_pointwise (prods : List Product) :
    ∀ (l : List OrderItemReq) (entries : List (Nat × Int × Int)),
      validateItems prods l = .ok entries →
      entries = l.map (fun it =>
          (it.product_id.getD 0, (it.qty.getD 0 : ℚ).num, itemPrice prods it)) ∧
      ∀ it ∈ l, ∃ p, lookupProd prods it.product_id = some p ∧ p.is_active = true ∧
          itemPrice prods it = p.price := by
  intro l
  induction l with
  | nil =>
    intro entries h
    simp [validateItems] at h
    simp [← h]
  | cons hd tl ih =>
    intro entries h
    cases hl : lookupProd prods hd.product_id with
    | none => rw [validateItems] at h; simp [hl] at h
    | some p =>
      by_cases hact : p.is_active
      · by_cases hq : ((hd.qty.getD 0 : ℚ).den = 1 ∧ 0 < (hd.qty.getD 0 : ℚ))
        · rw [validateItems] at h
          simp only [hl, hact, hq] at h
          cases hv : validateItems prods tl with
          | error e => rw [hv] at h; simp at h
          | ok tlres =>
            rw [hv] at h
            simp only [Bool.not_true, Bool.false_eq_true, if_false, if_true] at h
            have h' : (hd.product_id.getD 0, (hd.qty.getD 0 : ℚ).num, p.price) :: tlres
                = entries := by simpa using h
            rcases ih tlres hv with ⟨htl, hall⟩
            constructor
            · rw [← h', htl]
              simp [itemPrice, hl]
            · intro it hit
              rcases List.mem_cons.mp hit with rfl | hmem
              · exact ⟨p, hl, by simpa using hact, by simp [itemPrice, hl]⟩
              · exact hall it hmem
        · rw [validateItems] at h; simp [hl, hact, hq] at h
      · rw [validateItems] at h; simp [hl, hact] at h

/-- C5: when `POST /orders` succeeds, the returned order id is the freshly
issued one and the returned total is Σ(stored unit price × requested qty)
over the items — prices read from the product rows at this instant, with no
client-supplied price anywhere in the request; the order header is appended
with exactly that total, and one order line is appended per item whose
`price_at_purchase` snapshots the referenced product's stored price. -/
theorem placeOrder_success_spec (db : OrderDB) (req : OrderReq)
    (l : List OrderItemReq) (db' : OrderDB) (oid : Nat) (total : Int)
    (hi : req.items = some l)
    (h : placeOrder db req = (db', .ok (.created oid total))) :
    oid = db.nextOrderId ∧
    total = (l.map fun it => itemPrice db.prods it * (it.qty.getD 0 : ℚ).num).sum ∧
    db'.orders = db.orders ++
      [{ id := oid, customer_name := req.customer_name, email := req.email,
         phone := req.phone, comment := req.comment, address_json := req.address_json,
         total_amount := total, status := str "new",
         idempotency_key := req.idempotency_key }] ∧
    db'.order_items = db.order_items ++ l.map (fun it =>
      { order_id := oid, product_id := it.product_id.getD 0,
        qty := (it.qty.getD 0 : ℚ).num, price_at_purchase := itemPrice db.prods it }) ∧
    (∀ it ∈ l, ∃ p, lookupProd db.prods it.product_id = some p ∧ p.is_active = true ∧
        itemPrice db.prods it = p.price) := by
  simp only [placeOrder, hi] at h
  by_cases hemp : l.isEmpty = true
  · rw [if_pos hemp] at h
    exact absurd h (by simp)
  · rw [if_neg hemp] at h
    cases hdup : dupOrder db req with
    | some o => rw [hdup] at h; exact absurd h (by simp)
    | none =>
      rw [hdup] at h
      cases hv : validateItems db.prods l with
      | error e => rw [hv] at h; exact absurd h (by simp)
      | ok entries =>
        rw [hv] at h
        rcases validateItems_ok_pointwise db.prods l entries hv with ⟨hent, hall⟩
        simp only [Prod.mk.injEq] at h
        rcases h with ⟨hdb, hres⟩
        have hres2 : db.nextOrderId = oid ∧
            (entries.map fun e => e.2.2 * e.2.1).sum = total := by
          simpa using hres
        refine ⟨hres2.1.symm, ?_, ?_, ?_, hall⟩
        · rw [← hres2.2, hent, List.map_map]
          congr 1
        · rw [← hdb, ← hres2.2, ← hres2.1]
        · rw [← hdb, ← hres2.1, hent, List.map_map]
          simp

/-- Product catalog for the successful-order witness. -/
def c5Db : OrderDB :=
  { prods := [{ id := 1, name := str "P1", slug := str "p1", sku := none, price := 150,
                is_active := true, is_featured := false, category_id := 1,
                primary_image_url := none, doc_url := none, doc_meta := none,
                content_html := none, specs_html := none, has_docs := false },
              { id := 2, name := str "P2", slug := str "p2", sku := none, price := 40,
                is_active := true, is_featured := false, category_id := 1,
                primary_image_url := none, doc_url := none, doc_meta := none,
                content_html := none, specs_html := none, has_docs := false }],
    orders := [], order_items := [], nextOrderId := 1 }

/-- A two-line order request. -/
def c5Req : OrderReq :=
  { items := some [{ product_id := some 1, qty := some 2 },
                   { product_id := some 2, qty := some 3 }] }

/-- The items list of `c5Req`. -/
def c5Items : List OrderItemReq :=
  [{ product_id := some 1, qty := some 2 }, { product_id := some 2, qty := some 3 }]

theorem placeOrder_success_spec_witness :
    (c5Req.items = some c5Items ∧
     placeOrder c5Db c5Req = ((placeOrder c5Db c5Req).1, .ok (.created 1 420))) ∧
    (1 = c5Db.nextOrderId ∧
     420 = (c5Items.map fun it => itemPrice c5Db.prods it * (it.qty.getD 0 : ℚ).num).sum ∧
     (placeOrder c5Db c5Req).1.orders = c5Db.orders ++
       [{ id := 1, customer_name := c5Req.customer_name, email := c5Req.email,
          phone := c5Req.phone, comment := c5Req.comment, address_json := c5Req.address_json,
          total_amount := 420, status := str "new",
          idempotency_key := c5Req.idempotency_key }] ∧
     (placeOrder c5Db c5Req).1.order_items = c5Db.order_items ++ c5Items.map (fun it =>
       { order_id := 1, product_id := it.product_id.getD 0,
         qty := (it.qty.getD 0 : ℚ).num, price_at_purchase := itemPrice c5Db.prods it }) ∧
     (∀ it ∈ c5Items, ∃ p, lookupProd c5Db.prods it.product_id = some p ∧
         p.is_active = true ∧ itemPrice c5Db.prods it = p.price)) :=
  ⟨⟨rfl, by rfl⟩,
    placeOrder_success_spec c5Db c5Req c5Items (placeOrder c5Db c5Req).1 1 420 rfl
      (by rfl)⟩

/-! ### C2: the materialized-path invariant

Auxiliary string lemmas about `/`-separated paths, and a well-formedness
predicate for category tables tying every stored path to the parent's path. -/

theorem isPrefixOf_eq_true {l₁ l₂ : Str} : l₁.isPrefixOf l₂ = true ↔ l₁ <+: l₂ :=
  List.isPrefixOf_iff_prefix

theorem prefixOfLe {x y z : Str} (hx : x <+: z) (hy : y <+: z)
    (hl : x.length ≤ y.length) : x <+: y := by
  obtain ⟨r1, hx'⟩ := hx
  obtain ⟨r2, hy'⟩ := hy
  have hxz : x = z.take x.length := by
    rw [← hx', List.take_left]
  have : z.take x.length = y.take x.length := by
    rw [← hy', List.take_append_eq_append_take]
    have h0 : x.length - y.length = 0 := Nat.sub_eq_zero_of_le hl
    rw [h0]
    simp
  rw [hxz, this]
  exact List.take_prefix _ _

/-- Splitting a `/`-terminated prefix of a path whose last segment is
slash-free: the prefix stops at the head path or strictly inside it. -/
theorem prefixSep_split {a b s : Str} (hs : '/' ∉ s)
    (h : b ++ ['/'] <+: a ++ '/' :: s) : b = a ∨ b ++ ['/'] <+: a := by
  obtain ⟨r, hr⟩ := h
  have hr' : b ++ '/' :: r = a ++ '/' :: s := by
    simpa [List.append_assoc] using hr
  rcases Nat.lt_trichotomy b.length a.length with hlt | heq | hgt
  · right
    have t1 : (b ++ '/' :: r).take (b.length + 1) = b ++ ['/'] := by
      rw [List.take_append_eq_append_take]
      simp
    have t2 : (a ++ '/' :: s).take (b.length + 1) = a.take (b.length + 1) := by
      rw [List.take_append_eq_append_take]
      have h0 : b.length + 1 - a.length = 0 := by omega
      rw [h0]
      simp
    have hba : b ++ ['/'] = a.take (b.length + 1) := by
      rw [← t1, hr', t2]
    rw [hba]
    exact List.take_prefix _ _
  · left
    exact List.append_inj_left hr' heq
  · exfalso
    have hble : b.length ≤ a.length + (s.length + 1) := by
      have := congrArg List.length hr'
      simp at this
      omega
    have t1 : (b ++ '/' :: r).take b.length = b := by
      rw [List.take_append_eq_append_take]
      simp
    have t2 : (a ++ '/' :: s).take b.length =
        a ++ '/' :: s.take (b.length - a.length - 1) := by
      rw [List.take_append_eq_append_take]
      have h0 : b.length - a.length = (b.length - a.length - 1) + 1 := by omega
      rw [h0]
      have h1 : a.take b.length = a := List.take_of_length_le (by omega)
      rw [h1]
      rfl
    obtain ⟨u, hbu⟩ : ∃ u, b = a ++ '/' :: u :=
      ⟨s.take (b.length - a.length - 1), by
        conv_lhs => rw [← t1, hr']
        exact t2⟩
    rw [hbu] at hr'
    have hcancel : u ++ '/' :: r = s := by
      rw [List.append_assoc] at hr'
      have h2 := List.append_cancel_left hr'
      simpa using h2
    apply hs
    rw [← hcancel]
    exact List.mem_append_right _ (List.mem_cons_self _ _)

theorem takeWhile_sep (s t : Str) (hs : '/' ∉ s) :
    (s ++ '/' :: t).takeWhile (fun c => !(c == '/')) = s := by
  induction s with
  | nil => simp [List.takeWhile]
  | cons a as ih =>
    have ha : a ≠ '/' := fun h => hs (h ▸ List.mem_cons_self a as)
    have has : '/' ∉ as := fun h => hs (List.mem_cons_of_mem a h)
    simp only [List.cons_append, List.takeWhile]
    have : (!(a == '/')) = true := by simpa using ha
    rw [this]
    simp [ih has]

/-- Two decompositions of the same path at a slash-free last segment agree on
the segment. -/
theorem sep_suffix_inj {x₁ x₂ s₁ s₂ : Str} (h1 : '/' ∉ s₁) (h2 : '/' ∉ s₂)
    (h : x₁ ++ '/' :: s₁ = x₂ ++ '/' :: s₂) : s₁ = s₂ := by
  have key : ∀ (x s : Str), '/' ∉ s →
      ((x ++ '/' :: s).reverse.takeWhile fun c => !(c == '/')) = s.reverse := by
    intro x s hs
    have hrev : (x ++ '/' :: s).reverse = s.reverse ++ '/' :: x.reverse := by
      simp [List.reverse_append]
    rw [hrev]
    exact takeWhile_sep s.reverse x.reverse (by simpa using hs)
  have := congrArg (fun l : Str => (l.reverse.takeWhile fun c => !(c == '/'))) h
  simp only at this
  rw [key x₁ s₁ h1, key x₂ s₂ h2] at this
  exact List.reverse_injective this

theorem str_root_slash : str "root/" = str "root" ++ ['/'] := rfl

theorem rootPath_eq (s : Str) : rootPath s = str "root" ++ '/' :: s := by
  rw [rootPath, str_root_slash, List.append_assoc]
  rfl

/-- Path well-formedness of one category row: the stored path is derived from
the stored slug and the parent's stored path exactly as the routes compute it. -/
def pathOkB (cats : List Category) (c : Category) : Bool :=
  match c.parent_id with
  | none => c.path == rootPath c.slug
  | some pid =>
    match findCat cats pid with
    | some pr => c.path == childPath pr.path c.slug
    | none => false

/-- Well-formed category table: ids and slugs unique, ids nonzero (`SERIAL`),
slugs nonempty and slash-free, every path under the synthetic root, and every
row satisfying the path invariant. -/
def WF (cats : List Category) : Prop :=
  (cats.map (·.id)).Nodup ∧ (cats.map (·.slug)).Nodup ∧
    ∀ c ∈ cats, c.id ≠ 0 ∧ (c.slug ≠ [] ∧ '/' ∉ c.slug) ∧
      str "root/" <+: c.path ∧ pathOkB cats c = true

theorem pathOkB_none {cats : List Category} {c : Category} (hp : c.parent_id = none) :
    pathOkB cats c = true ↔ c.path = rootPath c.slug := by
  rw [pathOkB, hp]
  simp

theorem pathOkB_some {cats : List Category} {c : Category} {pid : Nat}
    (hp : c.parent_id = some pid) :
    pathOkB cats c = true ↔
      ∃ pr, findCat cats pid = some pr ∧ c.path = childPath pr.path c.slug := by
  rw [pathOkB, hp]
  cases hf : findCat cats pid with
  | none => simp [hf]
  | some pr => simp [hf]

theorem findCat_mem {cats : List Category} {i : Nat} {c : Category}
    (h : findCat cats i = some c) : c ∈ cats ∧ c.id = i := by
  refine ⟨List.mem_of_find?_eq_some h, ?_⟩
  have := List.find?_some h
  simpa using this

theorem findCat_of_mem {cats : List Category} (hids : (cats.map (·.id)).Nodup)
    {c : Category} (hc : c ∈ cats) : findCat cats c.id = some c := by
  induction cats with
  | nil => exact absurd hc (List.not_mem_nil c)
  | cons a tl ih =>
    rcases List.mem_cons.mp hc with rfl | hmem
    · simp [findCat]
    · have hane : a.id ≠ c.id := by
        intro h
        have : c.id ∈ tl.map (·.id) := List.mem_map_of_mem _ hmem
        rw [List.map_cons, List.nodup_cons] at hids
        exact hids.1 (h ▸ this)
      have : (a.id == c.id) = false := by simpa using hane
      rw [findCat, List.find?]
      rw [this]
      exact ih (by rw [List.map_cons, List.nodup_cons] at hids; exact hids.2) hmem

theorem findCat_map {cats : List Category} {i : Nat} (g : Category → Category)
    (hg : ∀ c, (g c).id = c.id) :
    findCat (cats.map g) i = (findCat cats i).map g := by
  rw [findCat, List.find?_map]
  have : ((fun c : Category => c.id == i) ∘ g) = fun c : Category => c.id == i := by
    funext c
    simp [hg c]
  rw [this]
  rfl

theorem id_inj {cats : List Category} (hids : (cats.map (·.id)).Nodup)
    {c₁ c₂ : Category} (h1 : c₁ ∈ cats) (h2 : c₂ ∈ cats) (h : c₁.id = c₂.id) :
    c₁ = c₂ :=
  List.inj_on_of_nodup_map hids h1 h2 h

theorem slug_inj {cats : List Category} (hslugs : (cats.map (·.slug)).Nodup)
    {c₁ c₂ : Category} (h1 : c₁ ∈ cats) (h2 : c₂ ∈ cats) (h : c₁.slug = c₂.slug) :
    c₁ = c₂ :=
  List.inj_on_of_nodup_map hslugs h1 h2 h

/-- Under well-formedness every path decomposes as `x ++ '/' :: slug`. -/
theorem path_split (cats : List Category) (hwf : WF cats) {c : Category}
    (hc : c ∈ cats) : ∃ x, c.path = x ++ '/' :: c.slug := by
  obtain ⟨hids, hslugs, hall⟩ := hwf
  obtain ⟨-, -, -, hok⟩ := hall c hc
  cases hp : c.parent_id with
  | none =>
    refine ⟨str "root", ?_⟩
    rw [(pathOkB_none hp).mp hok, rootPath_eq]
  | some pid =>
    obtain ⟨pr, -, hpath⟩ := (pathOkB_some hp).mp hok
    exact ⟨pr.path, hpath⟩

/-- Under well-formedness paths are unique. -/
theorem path_inj (cats : List Category) (hwf : WF cats) {c₁ c₂ : Category}
    (h1 : c₁ ∈ cats) (h2 : c₂ ∈ cats) (h : c₁.path = c₂.path) : c₁ = c₂ := by
  obtain ⟨x₁, hx₁⟩ := path_split cats hwf h1
  obtain ⟨x₂, hx₂⟩ := path_split cats hwf h2
  have hs₁ : '/' ∉ c₁.slug := (hwf.2.2 c₁ h1).2.1.2
  have hs₂ : '/' ∉ c₂.slug := (hwf.2.2 c₂ h2).2.1.2
  have : c₁.slug = c₂.slug := sep_suffix_inj hs₁ hs₂ (by rw [← hx₁, ← hx₂, h])
  exact slug_inj hwf.2.1 h1 h2 this

theorem le_foldr_max (l : List Nat) (i : Nat) (h : i ∈ l) : i ≤ l.foldr max 0 := by
  induction l with
  | nil => exact absurd h (List.not_mem_nil i)
  | cons a tl ih =>
    rcases List.mem_cons.mp h with rfl | hmem
    · exact le_max_left _ _
    · exact le_trans (ih hmem) (le_max_right _ _)

/-- Category mutations of the spec's Path Codec / Category Store surface:
create and rename/move. -/
inductive CatOp where
  | create (b : CatBody)
  | update (cid : Nat) (b : CatBody)
  deriving DecidableEq

/-- Run one category operation against the table; a failed request leaves the
table unchanged (the route answers with an error and writes nothing). -/
def applyCatOp (cats : List Category) (op : CatOp) : List Category :=
  match op with
  | .create b =>
    match categoryCreate cats b with
    | .ok cs => cs
    | .error _ => cats
  | .update cid b =>
    match categoryUpdate cats cid b with
    | .ok cs => cs
    | .error _ => cats

/-- Slug well-formedness of the spec's Path Codec: nonempty and slash-free. -/
def goodSlugB (s : Str) : Bool := !s.isEmpty && !s.contains '/'

/-- A body's slug field, when present, is a good slug. -/
def slugFieldOk (o : Option Str) : Bool :=
  match o with
  | some s => goodSlugB s
  | none => true

/-- The rename/move does not re-parent a category underneath its own subtree:
the resolved new parent's stored path is neither the category's stored path
nor below it. -/
def noReparentIntoSubtree (cats : List Category) (cid : Nat) (b : CatBody) : Bool :=
  match findCat cats cid with
  | none => true
  | some oldCat =>
    match (match b.parent_id with | some q => some q | none => oldCat.parent_id) with
    | none => true
    | some pid =>
      match findCat cats pid with
      | none => true
      | some pr =>
        !(pr.path == oldCat.path) && !((oldCat.path ++ ['/']).isPrefixOf pr.path)

/-- Side conditions under which an operation preserves the path invariant. -/
def okOp (cats : List Category) (op : CatOp) : Bool :=
  match op with
  | .create b => slugFieldOk b.slug
  | .update cid b => slugFieldOk b.slug && noReparentIntoSubtree cats cid b

/-- All operations of a trace satisfy their side conditions in the states they
actually run in. -/
def okTraceB : List Category → List CatOp → Bool
  | _, [] => true
  | cats, op :: ops => okOp cats op && okTraceB (applyCatOp cats op) ops

/-- Operations leading to a path-invariant violation: create `x`, create a
root category whose slug `x/y` contains a slash, then rename `x` to `w`. -/
def c2BadOps : List CatOp :=
  [.create { name := some (str "X"), slug := some (str "x") },
   .create { name := some (str "XY"), slug := some (str "x/y") },
   .update 1 { slug := some (str "w") }]

/-- The resulting category table. -/
def c2BadFinal : List Category := c2BadOps.foldl applyCatOp []

/-- C2 (counterexample): after creating root categories with slugs `x` and
`x/y` (both accepted, paths `root/x` and `root/x/y`) and renaming the first to
`w`, the subtree rewrite's prefix match catches the unrelated root category:
its path becomes `root/w/y` while the invariant demands `root/` ++ its slug
`x/y` — the claim's invariant fails after a sequence of create and
rename operations. -/
theorem c2_slash_slug_breaks_path_invariant :
    ∃ c ∈ c2BadFinal, c.parent_id = none ∧ c.slug = str "x/y" ∧
      c.path = str "root/w/y" ∧ c.path ≠ rootPath c.slug := by
  decide

theorem findCat_append_left {cats l₂ : List Category} {i : Nat} {c : Category}
    (h : findCat cats i = some c) : findCat (cats ++ l₂) i = some c := by
  rw [findCat, List.find?_append]
  rw [findCat] at h
  rw [h]
  rfl

theorem goodSlugB_iff {s : Str} : goodSlugB s = true ↔ s ≠ [] ∧ '/' ∉ s := by
  rw [goodSlugB]
  simp [List.isEmpty_iff]

theorem findCat_zero_none {cats : List Category}
    (h : ∀ c ∈ cats, c.id ≠ 0) : findCat cats 0 = none := by
  rw [findCat, List.find?_eq_none]
  intro c hc
  simpa using h c hc

/-- Appending a fresh well-formed row preserves well-formedness. -/
theorem WF_append_newRow {cats : List Category} (hwf : WF cats) {newRow : Category}
    (hid : newRow.id = nextCatId cats)
    (hslugrow : newRow.slug ≠ [] ∧ '/' ∉ newRow.slug)
    (hslugfresh : (cats.any fun c => c.slug == newRow.slug) = false)
    (hroot : str "root/" <+: newRow.path)
    (hshape : match newRow.parent_id with
      | none => newRow.path = rootPath newRow.slug
      | some pid => ∃ pr, findCat cats pid = some pr ∧
          newRow.path = childPath pr.path newRow.slug) :
    WF (cats ++ [newRow]) := by
  obtain ⟨hids, hslugs, hall⟩ := hwf
  have hfresh : nextCatId cats ∉ cats.map (·.id) := by
    intro hmem
    have := le_foldr_max _ _ hmem
    rw [nextCatId] at this
    omega
  have hslugfresh' : newRow.slug ∉ cats.map (·.slug) := by
    intro hmem
    rcases List.mem_map.mp hmem with ⟨c, hc, hceq⟩
    have hx : (fun c : Category => c.slug == newRow.slug) c = false := by
      rw [Bool.eq_false_iff]
      intro hx
      rw [List.any_eq_false] at hslugfresh
      exact absurd hx (by simpa using hslugfresh c hc)
    simp [hceq] at hx
  refine ⟨?_, ?_, ?_⟩
  · rw [List.map_append, List.nodup_append]
    refine ⟨hids, by simp, ?_⟩
    intro i hi hi'
    have : i = newRow.id := by simpa using hi'
    rw [this, hid] at hi
    exact hfresh hi
  · rw [List.map_append, List.nodup_append]
    refine ⟨hslugs, by simp, ?_⟩
    intro s hs hs'
    have : s = newRow.slug := by simpa using hs'
    rw [this] at hs
    exact hslugfresh' hs
  · intro c hc
    rcases List.mem_append.mp hc with hmem | hnew
    · obtain ⟨hid0, hsg, hrp, hok⟩ := hall c hmem
      refine ⟨hid0, hsg, hrp, ?_⟩
      cases hp : c.parent_id with
      | none => exact (pathOkB_none hp).mpr ((pathOkB_none hp).mp hok)
      | some pid =>
        obtain ⟨q, hq, heq⟩ := (pathOkB_some hp).mp hok
        exact (pathOkB_some hp).mpr ⟨q, findCat_append_left hq, heq⟩
    · have hcnew : c = newRow := by simpa using hnew
      subst hcnew
      refine ⟨by rw [hid, nextCatId]; omega, hslugrow, hroot, ?_⟩
      cases hp : c.parent_id with
      | none =>
        refine (pathOkB_none hp).mpr ?_
        rw [hp] at hshape
        exact hshape
      | some pid =>
        refine (pathOkB_some hp).mpr ?_
        rw [hp] at hshape
        obtain ⟨pr, hpr, heq⟩ := hshape
        exact ⟨pr, findCat_append_left hpr, heq⟩

/-- Creating a category with a good slug preserves well-formedness. -/
theorem WF_categoryCreate {cats : List Category} {b : CatBody} {cs : List Category}
    (hwf : WF cats) (hslug : slugFieldOk b.slug = true)
    (h : categoryCreate cats b = .ok cs) : WF cs := by
  cases hn : b.name with
  | none => rw [categoryCreate, hn] at h; simp at h
  | some name =>
  cases hsl : b.slug with
  | none => rw [categoryCreate, hn, hsl] at h; simp at h
  | some slug =>
  simp only [categoryCreate, hn, hsl] at h
  by_cases hguard : (name.isEmpty || slug.isEmpty) = true
  · rw [if_pos hguard] at h; exact absurd h (by simp)
  · rw [if_neg hguard] at h
    have hgood : slug ≠ [] ∧ '/' ∉ slug := by
      rw [hsl] at hslug
      simp only [slugFieldOk] at hslug
      exact goodSlugB_iff.mp hslug
    cases hp : b.parent_id with
    | none =>
      rw [hp] at h
      simp only at h
      by_cases hdup : (cats.any fun c => c.slug == slug) = true
      · rw [if_pos hdup] at h; exact absurd h (by simp)
      · rw [if_neg hdup] at h
        rw [if_neg (by simp)] at h
        have hcs : cs = cats ++
            [{ id := nextCatId cats, name := name, slug := slug, parent_id := b.parent_id,
               path := rootPath slug, is_active := b.is_active.getD true,
               featured_only := b.featured_only.getD false, desc_product_count := 0,
               sort_order := b.sort_order.getD 0, description := b.description }] := by
          rw [hp]
          have := h
          simp at this
          exact this.symm
        rw [hcs]
        refine WF_append_newRow hwf rfl hgood (by simpa using hdup)
          (List.prefix_append _ _) ?_
        simp only [hp]
    | some pid =>
      rw [hp] at h
      simp only at h
      by_cases hpid0 : (pid == 0) = true
      · exfalso
        have hz : findCat cats 0 = none :=
          findCat_zero_none (fun c hc => (hwf.2.2 c hc).1)
        have hpide : pid = 0 := by simpa using hpid0
        rw [if_pos hpid0] at h
        subst hpide
        simp only at h
        by_cases hdup : (cats.any fun c => c.slug == slug) = true
        · rw [if_pos hdup] at h; simp at h
        · rw [if_neg hdup] at h
          simp [hz] at h
      · rw [if_neg hpid0] at h
        cases hf : findCat cats pid with
        | none => simp [hf] at h
        | some pr =>
          simp only [hf] at h
          by_cases hdup : (cats.any fun c => c.slug == slug) = true
          · rw [if_pos hdup] at h; exact absurd h (by simp)
          · rw [if_neg hdup] at h
            rw [if_neg (by simp)] at h
            have hcs : cs = cats ++
                [{ id := nextCatId cats, name := name, slug := slug, parent_id := b.parent_id,
                   path := childPath pr.path slug, is_active := b.is_active.getD true,
                   featured_only := b.featured_only.getD false, desc_product_count := 0,
                   sort_order := b.sort_order.getD 0, description := b.description }] := by
              rw [hp]
              have := h
              simp at this
              exact this.symm
            rw [hcs]
            have hprroot : str "root/" <+: pr.path := ((hwf.2.2 pr (findCat_mem hf).1).2.2).1
            refine WF_append_newRow hwf rfl hgood (by simpa using hdup)
              (hprroot.trans (by rw [childPath]; exact List.prefix_append _ _)) ?_
            simp only [hp]
            exact ⟨pr, hf, rfl⟩

theorem cond_iff {P p : Str} :
    (p == P || (P ++ ['/']).isPrefixOf p) = true ↔ p = P ∨ (P ++ ['/']) <+: p := by
  simp [ isPrefixOf_eq_true]

theorem rootPre_not_prefix {P s : Str} (hroot : str "root/" <+: P)
    (hs : '/' ∉ s) (h : (P ++ ['/']) <+: str "root" ++ '/' :: s) : False := by
  have hlen : 5 ≤ P.length := by
    have := hroot.length_le
    simpa using this
  rcases prefixSep_split hs h with heq | hpre
  · have : P.length = 4 := by rw [heq]; rfl
    omega
  · have := hpre.length_le
    have h4 : (str "root" : Str).length = 4 := rfl
    simp [h4] at this
    omega

/-- Core preservation argument for the rename/move handler: updating the row
and rewriting the subtree prefixes keeps the table well-formed, provided the
new slug is good, slug uniqueness holds, and the new parent is not inside the
moved category's subtree. -/
theorem WF_update_core (cats : List Category) (cid : Nat) (oldCat : Category)
    (nm newSlug : Str) (parentId : Option Nat) (newPath : Str)
    (ia fo : Bool) (so : Int) (ds : Option Str)
    (hwf : WF cats) (hold : findCat cats cid = some oldCat)
    (hgood : newSlug ≠ [] ∧ '/' ∉ newSlug)
    (huniq : newSlug = oldCat.slug ∨ ∀ c ∈ cats, ¬(c.slug = newSlug ∧ c.id ≠ cid))
    (hshape : (parentId = none ∧ newPath = rootPath newSlug) ∨
      (∃ pid pr, parentId = some pid ∧ findCat cats pid = some pr ∧
        newPath = childPath pr.path newSlug ∧ pr.path ≠ oldCat.path ∧
        ¬((oldCat.path ++ ['/']) <+: pr.path))) :
    WF (if oldCat.path == newPath then
          cats.map fun c =>
            if c.id == cid then
              { c with name := nm, slug := newSlug, parent_id := parentId, path := newPath,
                       is_active := ia, featured_only := fo, sort_order := so,
                       description := ds }
            else c
        else
          (cats.map fun c =>
            if c.id == cid then
              { c with name := nm, slug := newSlug, parent_id := parentId, path := newPath,
                       is_active := ia, featured_only := fo, sort_order := so,
                       description := ds }
            else c).map fun c =>
            if c.path == oldCat.path || (oldCat.path ++ ['/']).isPrefixOf c.path then
              { c with path := newPath ++ c.path.drop oldCat.path.length }
            else c) := by
  obtain ⟨hids, hslugs, hall⟩ := hwf
  have hwf' : WF cats := ⟨hids, hslugs, hall⟩
  have holdmem : oldCat ∈ cats := (findCat_mem hold).1
  have holdid : oldCat.id = cid := (findCat_mem hold).2
  have hcats_nodup : cats.Nodup := hids.of_map
  set u1 : Category → Category := fun c =>
    if c.id == cid then
      { c with name := nm, slug := newSlug, parent_id := parentId, path := newPath,
               is_active := ia, featured_only := fo, sort_order := so,
               description := ds }
    else c with hu1
  set r2 : Category → Category := fun c =>
    if c.path == oldCat.path || (oldCat.path ++ ['/']).isPrefixOf c.path then
      { c with path := newPath ++ c.path.drop oldCat.path.length }
    else c with hr2
  -- basic facts about the two row transformations
  have hu1_id : ∀ c, (u1 c).id = c.id := by
    intro c
    rw [hu1]
    by_cases hc : (c.id == cid) = true <;> simp [hc]
  have hr2_id : ∀ c, (r2 c).id = c.id := by
    intro c
    rw [hr2]
    by_cases hc : (c.path == oldCat.path || (oldCat.path ++ ['/']).isPrefixOf c.path) = true <;>
      simp [hc]
  have hr2_slug : ∀ c, (r2 c).slug = c.slug := by
    intro c
    rw [hr2]
    by_cases hc : (c.path == oldCat.path || (oldCat.path ++ ['/']).isPrefixOf c.path) = true <;>
      simp [hc]
  have hr2_parent : ∀ c, (r2 c).parent_id = c.parent_id := by
    intro c
    rw [hr2]
    by_cases hc : (c.path == oldCat.path || (oldCat.path ++ ['/']).isPrefixOf c.path) = true <;>
      simp [hc]
  have hu1_slug : ∀ c, (u1 c).slug = (if (c.id == cid) = true then newSlug else c.slug) := by
    intro c
    rw [hu1]
    by_cases hc : (c.id == cid) = true <;> simp [hc]
  have hu1_old : u1 oldCat =
      { oldCat with name := nm, slug := newSlug, parent_id := parentId, path := newPath,
                    is_active := ia, featured_only := fo, sort_order := so,
                    description := ds } := by
    rw [hu1]
    simp [holdid]
  have hu1_other : ∀ c ∈ cats, c ≠ oldCat → u1 c = c := by
    intro c hc hne
    rw [hu1]
    have : (c.id == cid) = false := by
      rw [Bool.eq_false_iff]
      intro hx
      exact hne (id_inj hids hc holdmem (by rw [holdid]; simpa using hx))
    simp [this]
  have hslug_of_ne : ∀ c ∈ cats, c ≠ oldCat → (u1 c).slug = c.slug := by
    intro c hc hne
    rw [hu1_other c hc hne]
  -- slug uniqueness of the updated table
  have hslug_inj : ∀ c₁ ∈ cats, ∀ c₂ ∈ cats, (u1 c₁).slug = (u1 c₂).slug → c₁ = c₂ := by
    intro c₁ h1 c₂ h2 heq
    rw [hu1_slug, hu1_slug] at heq
    by_cases e1 : (c₁.id == cid) = true <;> by_cases e2 : (c₂.id == cid) = true
    · exact id_inj hids h1 h2 (by rw [show c₁.id = cid by simpa using e1,
        show c₂.id = cid by simpa using e2])
    · rw [if_pos e1, if_neg e2] at heq
      rcases huniq with hsame | hforall
      · have : c₂.slug = oldCat.slug := by rw [← heq, hsame]
        have hc2 : c₂ = oldCat := slug_inj hslugs h2 holdmem this
        exact absurd (by rw [hc2, holdid] : c₂.id = cid) (by simpa using e2)
      · exact absurd ⟨heq.symm, by simpa using e2⟩ (hforall c₂ h2)
    · rw [if_neg e1, if_pos e2] at heq
      rcases huniq with hsame | hforall
      · have : c₁.slug = oldCat.slug := by rw [heq, hsame]
        have hc1 : c₁ = oldCat := slug_inj hslugs h1 holdmem this
        exact absurd (by rw [hc1, holdid] : c₁.id = cid) (by simpa using e1)
      · exact absurd ⟨heq, by simpa using e1⟩ (hforall c₁ h1)
    · rw [if_neg e1, if_neg e2] at heq
      exact slug_inj hslugs h1 h2 heq
  -- properties of the new path
  have hrootN : str "root/" <+: newPath := by
    rcases hshape with ⟨-, hN⟩ | ⟨pid, pr, -, hpr, hN, -, -⟩
    · rw [hN, rootPath]
      exact List.prefix_append _ _
    · rw [hN, childPath]
      exact ((hall pr (findCat_mem hpr).1).2.2.1).trans (List.prefix_append _ _)
  have hrootP : str "root/" <+: oldCat.path := (hall oldCat holdmem).2.2.1
  have hgoodold : ∀ c ∈ cats, c.slug ≠ [] ∧ '/' ∉ c.slug := fun c hc => (hall c hc).2.1
  by_cases hpn : (oldCat.path == newPath) = true
  · -- path unchanged: only the row's non-path fields (and slug/parent) change
    rw [if_pos hpn]
    have hPN : oldCat.path = newPath := by simpa using hpn
    refine ⟨?_, ?_, ?_⟩
    · rw [List.map_map]
      have : ((fun c : Category => c.id) ∘ u1) = fun c : Category => c.id := by
        funext c; exact hu1_id c
      rw [this]
      exact hids
    · rw [List.map_map]
      exact List.Nodup.map_on (fun x hx y hy hxy => hslug_inj x hx y hy hxy) hcats_nodup
    · intro c' hc'
      rcases List.mem_map.mp hc' with ⟨c, hc, rfl⟩
      by_cases hcid : (c.id == cid) = true
      · have hceq : c = oldCat := id_inj hids hc holdmem (by rw [holdid]; simpa using hcid)
        subst hceq
        rw [hu1_old]
        refine ⟨by simpa using (hall c hc).1, hgood, hrootN, ?_⟩
        rcases hshape with ⟨hpid, hN⟩ | ⟨pid, pr, hpid, hpr, hN, hprne, hprpre⟩
        · refine (pathOkB_none (by simpa using hpid)).mpr ?_
          simpa using hN
        · refine (pathOkB_some (by simpa using hpid)).mpr ?_
          have hprne' : pr ≠ c := fun he => hprne (by rw [he])
          refine ⟨u1 pr, ?_, ?_⟩
          · rw [findCat_map u1 hu1_id, hpr]
            rfl
          · rw [hu1_other pr (findCat_mem hpr).1 hprne']
            simpa using hN
      · have hcne : c ≠ oldCat := by
          intro he
          rw [he, holdid] at hcid
          simp at hcid
        rw [hu1_other c hc hcne]
        obtain ⟨h0, hsg, hrp, hok⟩ := hall c hc
        refine ⟨h0, hsg, hrp, ?_⟩
        cases hp : c.parent_id with
        | none => exact (pathOkB_none hp).mpr ((pathOkB_none hp).mp hok)
        | some pid' =>
          obtain ⟨q, hq, heqc⟩ := (pathOkB_some hp).mp hok
          refine (pathOkB_some hp).mpr ⟨u1 q, ?_, ?_⟩
          · rw [findCat_map u1 hu1_id, hq]
            rfl
          · by_cases hqid : (q.id == cid) = true
            · have hqeq : q = oldCat :=
                id_inj hids (findCat_mem hq).1 holdmem (by rw [holdid]; simpa using hqid)
              subst hqeq
              rw [hu1_old]
              rw [heqc, childPath, childPath]
              simp [← hPN]
            · have hqne : q ≠ oldCat := by
                intro he
                rw [he, holdid] at hqid
                simp at hqid
              rw [hu1_other q (findCat_mem hq).1 hqne]
              exact heqc
  · -- path changed: the subtree below the old path is rewritten
    rw [if_neg hpn]
    have hPN : oldCat.path ≠ newPath := by simpa using hpn
    have hcondN : (newPath == oldCat.path || (oldCat.path ++ ['/']).isPrefixOf newPath)
        = false := by
      rw [Bool.eq_false_iff]
      intro hx
      rcases cond_iff.mp hx with he | hpre
      · exact hPN he.symm
      · rcases hshape with ⟨-, hN⟩ | ⟨pid, pr, -, hpr, hN, hprne, hprpre⟩
        · rw [hN, rootPath_eq] at hpre
          exact rootPre_not_prefix hrootP hgood.2 hpre
        · rw [hN, childPath] at hpre
          rcases prefixSep_split hgood.2 hpre with he | hp2
          · exact hprne he.symm
          · exact hprpre hp2
    rw [List.map_map]
    -- the composed per-row transformation
    have hg_id : ∀ c, ((r2 ∘ u1) c).id = c.id := fun c => by
      rw [Function.comp_apply, hr2_id, hu1_id]
    have hg_slug : ∀ c, ((r2 ∘ u1) c).slug = (u1 c).slug := fun c => by
      rw [Function.comp_apply, hr2_slug]
    have hg_old : (r2 ∘ u1) oldCat =
        { oldCat with name := nm, slug := newSlug, parent_id := parentId, path := newPath,
                      is_active := ia, featured_only := fo, sort_order := so,
                      description := ds } := by
      rw [Function.comp_apply, hu1_old, hr2]
      simp only
      rw [if_neg]
      intro hx
      rw [Bool.eq_false_iff] at hcondN
      exact hcondN (by simpa using hx)
    -- rows other than the updated one and outside the subtree are untouched
    have hg_out : ∀ c ∈ cats, c ≠ oldCat →
        ¬((oldCat.path ++ ['/']) <+: c.path) → (r2 ∘ u1) c = c := by
      intro c hc hne hnp
      rw [Function.comp_apply, hu1_other c hc hne, hr2]
      simp only
      rw [if_neg]
      intro hx
      rcases cond_iff.mp (by simpa using hx) with he | hpre
      · exact hne (path_inj cats hwf' hc holdmem he)
      · exact hnp hpre
    have hg_in : ∀ c ∈ cats, c ≠ oldCat →
        ((oldCat.path ++ ['/']) <+: c.path) →
        (r2 ∘ u1) c = { c with path := newPath ++ c.path.drop oldCat.path.length } := by
      intro c hc hne hp
      rw [Function.comp_apply, hu1_other c hc hne, hr2]
      simp only
      rw [if_pos]
      rw [cond_iff]
      exact Or.inr hp
    refine ⟨?_, ?_, ?_⟩
    · have : ((fun c : Category => c.id) ∘ (r2 ∘ u1)) = fun c : Category => c.id := by
        funext c; exact hg_id c
      rw [List.map_map, this]
      exact hids
    · rw [List.map_map]
      refine List.Nodup.map_on ?_ hcats_nodup
      intro x hx y hy hxy
      simp only [Function.comp_apply] at hxy
      rw [hr2_slug, hr2_slug] at hxy
      exact hslug_inj x hx y hy hxy
    · intro c' hc'
      rcases List.mem_map.mp hc' with ⟨c, hc, rfl⟩
      have hfind : ∀ i : Nat, findCat (cats.map (r2 ∘ u1)) i =
          (findCat cats i).map (r2 ∘ u1) :=
        fun i => findCat_map _ hg_id
      by_cases hcid : (c.id == cid) = true
      · have hceq : c = oldCat := id_inj hids hc holdmem (by rw [holdid]; simpa using hcid)
        subst hceq
        rw [hg_old]
        refine ⟨by simpa using (hall c hc).1, hgood, hrootN, ?_⟩
        rcases hshape with ⟨hpid, hN⟩ | ⟨pid, pr, hpid, hpr, hN, hprne, hprpre⟩
        · refine (pathOkB_none (by simpa using hpid)).mpr ?_
          simpa using hN
        · refine (pathOkB_some (by simpa using hpid)).mpr ?_
          have hprne' : pr ≠ c := fun he => hprne (by rw [he])
          refine ⟨(r2 ∘ u1) pr, ?_, ?_⟩
          · rw [hfind, hpr]
            rfl
          · rw [hg_out pr (findCat_mem hpr).1 hprne' hprpre]
            simpa using hN
      · have hcne : c ≠ oldCat := by
          intro he
          rw [he, holdid] at hcid
          simp at hcid
        obtain ⟨h0, hsg, hrp, hok⟩ := hall c hc
        cases hp : c.parent_id with
        | none =>
          have hcpath : c.path = rootPath c.slug := (pathOkB_none hp).mp hok
          have hnosub : ¬((oldCat.path ++ ['/']) <+: c.path) := by
            intro hx
            rw [hcpath, rootPath_eq] at hx
            exact rootPre_not_prefix hrootP hsg.2 hx
          rw [hg_out c hc hcne hnosub]
          exact ⟨h0, hsg, hrp, (pathOkB_none hp).mpr hcpath⟩
        | some pid' =>
          obtain ⟨q, hq, heqc⟩ := (pathOkB_some hp).mp hok
          have hqmem : q ∈ cats := (findCat_mem hq).1
          by_cases hqid : (q.id == cid) = true
          · -- parent is the moved node: the row is inside the rewritten subtree
            have hqeq : q = oldCat :=
              id_inj hids hqmem holdmem (by rw [holdid]; simpa using hqid)
            have hsub : (oldCat.path ++ ['/']) <+: c.path := by
              rw [heqc, hqeq, childPath]
              exact ⟨c.slug, by simp⟩
            rw [hg_in c hc hcne hsub]
            refine ⟨h0, hsg, ?_, ?_⟩
            · exact hrootN.trans (List.prefix_append _ _)
            · refine (pathOkB_some (show ({ c with path := newPath ++ c.path.drop oldCat.path.length } : Category).parent_id = some pid' by simpa using hp)).mpr ?_
              refine ⟨(r2 ∘ u1) q, by rw [hfind, hq]; rfl, ?_⟩
              rw [hqeq, hg_old]
              simp only
              rw [heqc, hqeq, childPath]
              rw [List.drop_left]
              rfl
          · have hqne : q ≠ oldCat := by
              intro he
              rw [he, holdid] at hqid
              simp at hqid
            by_cases hqpre : (oldCat.path ++ ['/']) <+: q.path
            · -- the parent sits inside the subtree, so the row does too
              have hsub : (oldCat.path ++ ['/']) <+: c.path := by
                rw [heqc, childPath]
                exact hqpre.trans (List.prefix_append _ _)
              have hlenq : oldCat.path.length ≤ q.path.length := by
                have := hqpre.length_le
                simp at this
                omega
              rw [hg_in c hc hcne hsub]
              refine ⟨h0, hsg, hrootN.trans (List.prefix_append _ _), ?_⟩
              refine (pathOkB_some (show ({ c with path := newPath ++ c.path.drop oldCat.path.length } : Category).parent_id = some pid' by simpa using hp)).mpr ?_
              refine ⟨(r2 ∘ u1) q, by rw [hfind, hq]; rfl, ?_⟩
              rw [hg_in q hqmem hqne hqpre]
              simp only [childPath]
              rw [heqc, childPath]
              rw [List.drop_append_eq_append_drop]
              have h0' : oldCat.path.length - q.path.length = 0 :=
                Nat.sub_eq_zero_of_le hlenq
              rw [h0']
              simp [List.append_assoc]
            · -- parent untouched, row untouched
              have hnosub : ¬((oldCat.path ++ ['/']) <+: c.path) := by
                intro hx
                rw [heqc, childPath] at hx
                rcases prefixSep_split hsg.2 hx with he | hpre2
                · exact hqne (path_inj cats hwf' hqmem holdmem he.symm)
                · exact hqpre hpre2
              rw [hg_out c hc hcne hnosub]
              refine ⟨h0, hsg, hrp, ?_⟩
              refine (pathOkB_some hp).mpr ⟨(r2 ∘ u1) q, by rw [hfind, hq]; rfl, ?_⟩
              rw [hg_out q hqmem hqne hqpre]
              exact heqc

/-- A successful rename/move with a good slug and no reparent-into-own-subtree
preserves well-formedness. -/
theorem WF_categoryUpdate {cats : List Category} {cid : Nat} {b : CatBody}
    {cs : List Category} (hwf : WF cats) (hslug : slugFieldOk b.slug = true)
    (hrep : noReparentIntoSubtree cats cid b = true)
    (h : categoryUpdate cats cid b = .ok cs) : WF cs := by
  cases hold : findCat cats cid with
  | none => rw [categoryUpdate, hold] at h; simp at h
  | some oldCat =>
  simp only [categoryUpdate, hold] at h
  by_cases hguard :
      ((b.name.getD oldCat.name).isEmpty || (b.slug.getD oldCat.slug).isEmpty) = true
  · rw [if_pos hguard] at h; exact absurd h (by simp)
  · rw [if_neg hguard] at h
    by_cases huq : (!(b.slug.getD oldCat.slug == oldCat.slug) &&
        cats.any fun c => c.slug == b.slug.getD oldCat.slug && !(c.id == cid)) = true
    · rw [if_pos huq] at h; exact absurd h (by simp)
    · rw [if_neg huq] at h
      have hgood' : (b.slug.getD oldCat.slug) ≠ [] ∧ '/' ∉ (b.slug.getD oldCat.slug) := by
        cases hbs : b.slug with
        | some s =>
          rw [hbs] at hslug
          simp only [slugFieldOk] at hslug
          simpa using goodSlugB_iff.mp hslug
        | none =>
          simpa using (hwf.2.2 oldCat (findCat_mem hold).1).2.1
      have huniq' : (b.slug.getD oldCat.slug) = oldCat.slug ∨
          ∀ c ∈ cats, ¬(c.slug = b.slug.getD oldCat.slug ∧ c.id ≠ cid) := by
        by_cases hse : (b.slug.getD oldCat.slug == oldCat.slug) = true
        · left; simpa using hse
        · right
          rintro c hc ⟨h1, h2⟩
          apply huq
          rw [Bool.and_eq_true]
          refine ⟨by simpa using hse, ?_⟩
          rw [List.any_eq_true]
          refine ⟨c, hc, ?_⟩
          rw [Bool.and_eq_true]
          exact ⟨by simpa using h1, by simpa using h2⟩
      cases hpv : (match b.parent_id with
          | some q => some q
          | none => oldCat.parent_id) with
      | none =>
        simp only [hpv] at h
        have hcs : (if oldCat.path == rootPath (b.slug.getD oldCat.slug) then
              cats.map fun c =>
                if c.id == cid then
                  { c with name := b.name.getD oldCat.name,
                           slug := b.slug.getD oldCat.slug, parent_id := none,
                           path := rootPath (b.slug.getD oldCat.slug),
                           is_active := b.is_active.getD oldCat.is_active,
                           featured_only := b.featured_only.getD oldCat.featured_only,
                           sort_order := b.sort_order.getD oldCat.sort_order,
                           description := match b.description with
                             | some d => some d
                             | none => oldCat.description }
                else c
            else
              (cats.map fun c =>
                if c.id == cid then
                  { c with name := b.name.getD oldCat.name,
                           slug := b.slug.getD oldCat.slug, parent_id := none,
                           path := rootPath (b.slug.getD oldCat.slug),
                           is_active := b.is_active.getD oldCat.is_active,
                           featured_only := b.featured_only.getD oldCat.featured_only,
                           sort_order := b.sort_order.getD oldCat.sort_order,
                           description := match b.description with
                             | some d => some d
                             | none => oldCat.description }
                else c).map fun c =>
                if c.path == oldCat.path ||
                    (oldCat.path ++ ['/']).isPrefixOf c.path then
                  { c with path := rootPath (b.slug.getD oldCat.slug) ++
                      c.path.drop oldCat.path.length }
                else c) = cs := by
          simpa using h
        rw [← hcs]
        exact WF_update_core cats cid oldCat (b.name.getD oldCat.name)
          (b.slug.getD oldCat.slug) none (rootPath (b.slug.getD oldCat.slug))
          (b.is_active.getD oldCat.is_active) (b.featured_only.getD oldCat.featured_only)
          (b.sort_order.getD oldCat.sort_order)
          (match b.description with | some d => some d | none => oldCat.description)
          hwf hold hgood' huniq' (Or.inl ⟨rfl, rfl⟩)
      | some pid =>
        simp only [hpv] at h
        cases hf : findCat cats pid with
        | none => simp only [hf] at h; simp at h
        | some pr =>
          simp only [hf] at h
          have hrep2 : (!(pr.path == oldCat.path) &&
              !((oldCat.path ++ ['/']).isPrefixOf pr.path)) = true := by
            have := hrep
            simp only [noReparentIntoSubtree, hold, hpv, hf] at this
            exact this
          rw [Bool.and_eq_true] at hrep2
          have hprne : pr.path ≠ oldCat.path := by simpa using hrep2.1
          have hprpre : ¬((oldCat.path ++ ['/']) <+: pr.path) := by
            have := hrep2.2
            rw [Bool.not_eq_eq_eq_not] at this
            simp only [Bool.not_true] at this
            intro hx
            rw [ isPrefixOf_eq_true.mpr hx] at this
            simp at this
          have hcs : (if oldCat.path == childPath pr.path (b.slug.getD oldCat.slug) then
                cats.map fun c =>
                  if c.id == cid then
                    { c with name := b.name.getD oldCat.name,
                             slug := b.slug.getD oldCat.slug, parent_id := some pid,
                             path := childPath pr.path (b.slug.getD oldCat.slug),
                             is_active := b.is_active.getD oldCat.is_active,
                             featured_only := b.featured_only.getD oldCat.featured_only,
                             sort_order := b.sort_order.getD oldCat.sort_order,
                             description := match b.description with
                               | some d => some d
                               | none => oldCat.description }
                  else c
              else
                (cats.map fun c =>
                  if c.id == cid then
                    { c with name := b.name.getD oldCat.name,
                             slug := b.slug.getD oldCat.slug, parent_id := some pid,
                             path := childPath pr.path (b.slug.getD oldCat.slug),
                             is_active := b.is_active.getD oldCat.is_active,
                             featured_only := b.featured_only.getD oldCat.featured_only,
                             sort_order := b.sort_order.getD oldCat.sort_order,
                             description := match b.description with
                               | some d => some d
                               | none => oldCat.description }
                  else c).map fun c =>
                  if c.path == oldCat.path ||
                      (oldCat.path ++ ['/']).isPrefixOf c.path then
                    { c with path := childPath pr.path (b.slug.getD oldCat.slug) ++
                        c.path.drop oldCat.path.length }
                  else c) = cs := by
            simpa using h
          rw [← hcs]
          exact WF_update_core cats cid oldCat (b.name.getD oldCat.name)
            (b.slug.getD oldCat.slug) (some pid)
            (childPath pr.path (b.slug.getD oldCat.slug))
            (b.is_active.getD oldCat.is_active) (b.featured_only.getD oldCat.featured_only)
            (b.sort_order.getD oldCat.sort_order)
            (match b.description with | some d => some d | none => oldCat.description)
            hwf hold hgood' huniq'
            (Or.inr ⟨pid, pr, rfl, hf, rfl, hprne, hprpre⟩)

/-- C2 (amended): starting from any well-formed category table, any sequence
of category creates and renames/moves — in which every slug supplied is
nonempty and contains no `/`, and no rename/move re-parents a category under
its own subtree — preserves well-formedness: afterwards every category's path
still equals `parent.path ++ "/" ++ slug` (or `"root/" ++ slug` when
parentless), the subtree rewrite having replaced exactly the old-path prefix
of every subtree row while keeping each per-node suffix intact. -/
theorem c2_path_invariant_preserved (ops : List CatOp) (cats : List Category)
    (hwf : WF cats) (htr : okTraceB cats ops = true) :
    WF (ops.foldl applyCatOp cats) := by
  induction ops generalizing cats with
  | nil => exact hwf
  | cons op ops ih =>
    rw [okTraceB, Bool.and_eq_true] at htr
    rw [List.foldl_cons]
    refine ih (applyCatOp cats op) ?_ htr.2
    cases op with
    | create b =>
      rw [applyCatOp]
      cases hc : categoryCreate cats b with
      | ok cs => exact WF_categoryCreate hwf (by simpa [okOp] using htr.1) hc
      | error e => exact hwf
    | update cid b =>
      rw [applyCatOp]
      have hok := htr.1
      rw [okOp, Bool.and_eq_true] at hok
      cases hc : categoryUpdate cats cid b with
      | ok cs => exact WF_categoryUpdate hwf hok.1 hok.2 hc
      | error e => exact hwf

instance (cats : List Category) : Decidable (WF cats) := by
  unfold WF
  infer_instance

/-- A well-behaved trace: create `electronics`, create `laptops` below it,
rename `laptops` to `notebooks`. -/
def c2GoodOps : List CatOp :=
  [.create { name := some (str "Electronics"), slug := some (str "electronics") },
   .create { name := some (str "Laptops"), slug := some (str "laptops"),
             parent_id := some 1 },
   .update 2 { slug := some (str "notebooks") }]

theorem c2_path_invariant_preserved_witness :
    (WF [] ∧ okTraceB [] c2GoodOps = true) ∧ WF (c2GoodOps.foldl applyCatOp []) :=
  ⟨⟨by decide, by decide⟩, c2_path_invariant_preserved c2GoodOps [] (by decide) (by decide)⟩

/-! ### C7: the public category tree

`GET /categories/tree` selects active categories ordered by
`(sort_order, name)`, builds a map of nodes, attaches every row whose parent
is present in the map to that parent's `children` (in row order), treats rows
with a null, missing, or inactive parent as roots, and sorts the roots and
every `children` array with the comparator
`sort_order − sort_order`, ties by `localeCompare` on names.  The name
comparison is modelled as lexicographic code-point order; the recursive
materialization of `children` is modelled with a fuel argument that is ample
for every acyclic table. -/

/-- Lexicographic code-point order on names (models `localeCompare`). -/
def strLe : Str → Str → Bool
  | [], _ => true
  | _ :: _, [] => false
  | a :: as, b :: bs =>
    decide (a.toNat < b.toNat) || (decide (a.toNat = b.toNat) && strLe as bs)

/-- The route's sibling comparator: `sort_order` ascending, ties by name. -/
def catLe (a b : Category) : Bool :=
  if a.sort_order = b.sort_order then strLe a.name b.name
  else decide (a.sort_order ≤ b.sort_order)

/-- A node of the JSON forest the route returns. -/
inductive CTree where
  | node (id : Nat) (name : Str) (slug : Str) (description : Option Str)
      (descProductCount : Int) (sortOrder : Int) (children : List CTree)

/-- The SQL row set: active categories, ordered by `(sort_order, name)`. -/
def rowsOf (cats : List Category) : List Category :=
  (cats.filter (·.is_active)).mergeSort catLe

/-- The rows pushed (in row order) into the children array of node `i`. -/
def childrenPre (rows : List Category) (i : Nat) : List Category :=
  rows.filter fun r => r.parent_id == some i

/-- Whether a row surfaces as a root: null parent, or parent not in the
(active) row set. -/
def isRootRow (rows : List Category) (c : Category) : Bool :=
  match c.parent_id with
  | none => true
  | some pid => !(rows.any (·.id == pid))

/-- Materialize one node with its recursively sorted children. -/
def buildNode (rows : List Category) : Nat → Category → CTree
  | 0, c => .node c.id c.name c.slug c.description c.desc_product_count c.sort_order []
  | fuel + 1, c =>
    .node c.id c.name c.slug c.description c.desc_product_count c.sort_order
      (((childrenPre rows c.id).mergeSort catLe).map (buildNode rows fuel))

/-- `GET /categories/tree`. -/
def categoriesTree (cats : List Category) : List CTree :=
  let rows := rowsOf cats
  ((rows.filter (isRootRow rows)).mergeSort catLe).map (buildNode rows rows.length)

/-- The ids of a tree, root first. -/
def treeIds : CTree → List Nat
  | .node i _ _ _ _ _ children =>
    i :: (children.attach.map fun x => treeIds x.1).flatten
termination_by t => sizeOf t
decreasing_by
  simp only [CTree.node.sizeOf_spec]
  have h := List.sizeOf_lt_of_mem x.2
  omega

/-- The comparator lifted to built nodes. -/
def nodeLe (x y : CTree) : Bool :=
  match x, y with
  | .node _ nx _ _ _ sx _, .node _ ny _ _ _ sy _ =>
    if sx = sy then strLe nx ny else decide (sx ≤ sy)

/-- Adjacent-pair sortedness of a sibling list. -/
def chainLe : List CTree → Bool
  | [] => true
  | [_] => true
  | x :: y :: rest => nodeLe x y && chainLe (y :: rest)

/-- Sortedness of every sibling list of a tree. -/
def sortedTree : CTree → Bool
  | .node _ _ _ _ _ _ children =>
    chainLe children && children.attach.all fun x => sortedTree x.1
termination_by t => sizeOf t
decreasing_by
  simp only [CTree.node.sizeOf_spec]
  have h := List.sizeOf_lt_of_mem x.2
  omega

/-- Sortedness of every level of a forest. -/
def sortedForest (ts : List CTree) : Bool := chainLe ts && ts.all sortedTree

/-- The id at a tree's root. -/
def rootId : CTree → Nat
  | .node i _ _ _ _ _ _ => i

/-- The ids reachable from a row through `childrenPre`, fuel-bounded, without
the sorting of siblings (a permutation-invariant skeleton of `buildNode`). -/
def descIds (rows : List Category) : Nat → Category → List Nat
  | 0, c => [c.id]
  | fuel + 1, c => c.id :: (childrenPre rows c.id).flatMap (descIds rows fuel)

theorem strLe_total : ∀ a b : Str, (strLe a b || strLe b a) = true := by
  intro a
  induction a with
  | nil => intro b; simp [strLe]
  | cons x xs ih =>
    intro b
    cases b with
    | nil => simp [strLe]
    | cons y ys =>
      simp only [strLe]
      rcases Nat.lt_trichotomy x.toNat y.toNat with h | h | h
      · simp [h]
      · have h1 : ¬ x.toNat < y.toNat := by omega
        have h2 : ¬ y.toNat < x.toNat := by omega
        have h3 := ih ys
        simp [h, h1, h2]
        rcases Bool.or_eq_true_iff.mp h3 with h4 | h4
        · exact Or.inl h4
        · exact Or.inr h4
      · simp [h, Nat.lt_asymm h]

theorem strLe_trans : ∀ a b c : Str, strLe a b = true → strLe b c = true →
    strLe a c = true := by
  intro a
  induction a with
  | nil => intro b c _ _; simp [strLe]
  | cons x xs ih =>
    intro b c hab hbc
    cases b with
    | nil => simp [strLe] at hab
    | cons y ys =>
      cases c with
      | nil => simp [strLe] at hbc
      | cons z zs =>
        simp only [strLe] at hab hbc ⊢
        simp only [Bool.or_eq_true, Bool.and_eq_true, decide_eq_true_eq] at hab hbc ⊢
        rcases hab with h1 | ⟨h1, h1'⟩ <;> rcases hbc with h2 | ⟨h2, h2'⟩
        · exact Or.inl (by omega)
        · exact Or.inl (by omega)
        · exact Or.inl (by omega)
        · exact Or.inr ⟨by omega, ih ys zs h1' h2'⟩

theorem catLe_total : ∀ a b : Category, (catLe a b || catLe b a) = true := by
  intro a b
  rw [catLe, catLe]
  by_cases h : a.sort_order = b.sort_order
  · simp [h, strLe_total a.name b.name]
  · have h' : b.sort_order ≠ a.sort_order := fun he => h he.symm
    simp only [h, h', if_false]
    rcases Int.lt_or_lt_of_ne h with hlt | hlt
    · simp [Int.le_of_lt hlt]
    · simp [Int.le_of_lt hlt]

theorem catLe_trans : ∀ a b c : Category, catLe a b = true → catLe b c = true →
    catLe a c = true := by
  intro a b c hab hbc
  rw [catLe] at hab hbc ⊢
  by_cases h1 : a.sort_order = b.sort_order <;> by_cases h2 : b.sort_order = c.sort_order
  · rw [if_pos h1] at hab
    rw [if_pos h2] at hbc
    rw [if_pos (h1.trans h2)]
    exact strLe_trans _ _ _ hab hbc
  · rw [if_neg h2] at hbc
    have hac : a.sort_order ≠ c.sort_order := by rw [h1]; exact h2
    rw [if_neg hac]
    simp only [decide_eq_true_eq] at hbc ⊢
    rw [h1]
    exact hbc
  · rw [if_neg h1] at hab
    have hac : a.sort_order ≠ c.sort_order := by rw [← h2]; exact h1
    rw [if_neg hac]
    simp only [decide_eq_true_eq] at hab ⊢
    rw [← h2]
    exact hab
  · rw [if_neg h1] at hab
    rw [if_neg h2] at hbc
    simp only [decide_eq_true_eq] at hab hbc
    have hac : a.sort_order ≠ c.sort_order := by
      intro he
      exact h1 (le_antisymm hab (he ▸ hbc))
    rw [if_neg hac]
    simp only [decide_eq_true_eq]
    exact le_trans hab hbc

theorem buildNode_shape (rows : List Category) (f : Nat) (c : Category) :
    ∃ ch, buildNode rows f c =
      .node c.id c.name c.slug c.description c.desc_product_count c.sort_order ch := by
  cases f with
  | zero => exact ⟨[], rfl⟩
  | succ f' => exact ⟨_, rfl⟩

theorem nodeLe_build (rows : List Category) (f g : Nat) (a b : Category) :
    nodeLe (buildNode rows f a) (buildNode rows g b) = catLe a b := by
  obtain ⟨cha, ha⟩ := buildNode_shape rows f a
  obtain ⟨chb, hb⟩ := buildNode_shape rows g b
  rw [ha, hb, nodeLe, catLe]

theorem chainLe_map_build (rows : List Category) (f : Nat) :
    ∀ l : List Category, l.Pairwise (fun a b => catLe a b = true) →
      chainLe (l.map (buildNode rows f)) = true := by
  intro l
  induction l with
  | nil => intro _; rfl
  | cons a l ih =>
    intro hp
    rw [List.pairwise_cons] at hp
    cases l with
    | nil => rfl
    | cons b l' =>
      rw [List.map_cons, List.map_cons, chainLe, Bool.and_eq_true]
      refine ⟨?_, ?_⟩
      · rw [nodeLe_build]
        exact hp.1 b (List.mem_cons_self b l')
      · rw [← List.map_cons]
        exact ih hp.2

theorem sortedTree_build (rows : List Category) :
    ∀ (f : Nat) (c : Category), sortedTree (buildNode rows f c) = true := by
  intro f
  induction f with
  | zero => intro c; simp [buildNode, sortedTree, chainLe]
  | succ f' ih =>
    intro c
    rw [buildNode, sortedTree, Bool.and_eq_true]
    constructor
    · exact chainLe_map_build rows f' _
        (List.sorted_mergeSort catLe_trans catLe_total (childrenPre rows c.id))
    · rw [List.all_eq_true]
      rintro ⟨t, ht⟩ -
      rcases List.mem_map.mp ht with ⟨c', -, rfl⟩
      exact ih c'

/-- Every level of the returned forest is sorted by the route's comparator:
`sort_order` ascending, ties broken by name. -/
theorem sortedForest_categoriesTree (cats : List Category) :
    sortedForest (categoriesTree cats) = true := by
  rw [categoriesTree, sortedForest, Bool.and_eq_true]
  constructor
  · exact chainLe_map_build _ _ _
      (List.sorted_mergeSort catLe_trans catLe_total _)
  · rw [List.all_eq_true]
    intro t ht
    rcases List.mem_map.mp ht with ⟨c', -, rfl⟩
    exact sortedTree_build _ _ c'

theorem count_filter_ite {p : Category → Bool} {a : Category} {l : List Category} :
    List.count a (l.filter p) = if p a = true then List.count a l else 0 := by
  by_cases hp : p a = true
  · rw [if_pos hp, List.count_filter hp]
  · rw [if_neg hp]
    refine List.count_eq_zero_of_not_mem ?_
    intro hmem
    exact hp (List.of_mem_filter hmem)

theorem flatMap_congr {l : List Category} {f g : Category → List Nat}
    (h : ∀ a ∈ l, f a = g a) : l.flatMap f = l.flatMap g := by
  induction l with
  | nil => rfl
  | cons a l ih =>
    rw [List.flatMap_cons, List.flatMap_cons, h a (List.mem_cons_self a l),
      ih fun a ha => h a (List.mem_cons_of_mem _ ha)]

theorem flatMap_cons_perm (l : List Category) (g : Category → Nat)
    (h : Category → List Nat) :
    (l.flatMap fun r => g r :: h r).Perm (l.map g ++ l.flatMap h) := by
  induction l with
  | nil => simp
  | cons a l ih =>
    rw [List.flatMap_cons, List.map_cons, List.flatMap_cons, List.cons_append,
      List.cons_append]
    refine List.Perm.cons _ ?_
    exact (List.Perm.append_left _ ih).trans (List.perm_append_comm_assoc _ _ _)

theorem sum_if_id (pid : Nat) (k : Nat) :
    ∀ l : List Category, (l.map (·.id)).Nodup →
      (l.map fun r => if (pid == r.id) = true then k else 0).sum =
        if pid ∈ l.map (·.id) then k else 0 := by
  intro l
  induction l with
  | nil => intro _; simp
  | cons a l ih =>
    intro h
    rw [List.map_cons, List.nodup_cons] at h
    rw [List.map_cons, List.sum_cons, List.map_cons, ih h.2]
    by_cases hpa : (pid == a.id) = true
    · have hpa' : pid = a.id := by simpa using hpa
      rw [if_pos hpa]
      have hnotin : pid ∉ l.map (·.id) := by rw [hpa']; exact h.1
      rw [if_neg hnotin, if_pos (by rw [hpa']; exact List.mem_cons_self _ _)]
      omega
    · have hpa' : pid ≠ a.id := by simpa using hpa
      rw [if_neg hpa]
      by_cases hin : pid ∈ l.map (·.id)
      · rw [if_pos hin, if_pos (List.mem_cons_of_mem _ hin)]
        omega
      · have hnot : pid ∉ a.id :: l.map (·.id) := by
          rw [List.mem_cons]
          rintro (he | hm)
          · exact hpa' he
          · exact hin hm
        rw [if_neg hin, if_neg hnot]

theorem id_mem_of_any {R : List Category} {pid : Nat}
    (h : (R.any fun r => r.id == pid) = true) : ∃ p ∈ R, p.id = pid := by
  rw [List.any_eq_true] at h
  obtain ⟨p, hp, hpe⟩ := h
  exact ⟨p, hp, by simpa using hpe⟩

theorem any_of_id_mem {R : List Category} {pid : Nat} {p : Category}
    (hp : p ∈ R) (hpe : p.id = pid) : (R.any fun r => r.id == pid) = true := by
  rw [List.any_eq_true]
  exact ⟨p, hp, by simpa using hpe⟩

/-- The children of the root layer are exactly the roots of the non-root
layer. -/
theorem children_of_roots_perm (R : List Category)
    (hids : (R.map (·.id)).Nodup) :
    ((R.filter (isRootRow R)).flatMap fun r => childrenPre R r.id).Perm
      ((R.filter fun c => !(isRootRow R c)).filter
        (isRootRow (R.filter fun c => !(isRootRow R c)))) := by
  have hrootsids : ((R.filter (isRootRow R)).map (·.id)).Nodup :=
    ((List.filter_sublist R).map _).nodup hids
  rw [List.perm_iff_count]
  intro x
  rw [List.count_flatMap]
  have hterm : (List.map (List.count x ∘ fun r => childrenPre R r.id)
      (R.filter (isRootRow R))) =
      ((R.filter (isRootRow R)).map fun r =>
        if (x.parent_id == some r.id) = true then List.count x R else 0) := by
    refine List.map_congr_left ?_
    intro r _
    rw [Function.comp_apply, childrenPre, count_filter_ite]
  rw [hterm]
  have hrhs : List.count x ((R.filter fun c => !(isRootRow R c)).filter
      (isRootRow (R.filter fun c => !(isRootRow R c)))) =
      if (isRootRow (R.filter fun c => !(isRootRow R c)) x = true ∧
          (!(isRootRow R x)) = true) then List.count x R else 0 := by
    rw [count_filter_ite, count_filter_ite]
    by_cases h1 : isRootRow (R.filter fun c => !(isRootRow R c)) x = true <;>
      by_cases h2 : (!(isRootRow R x)) = true <;>
        simp [h1, h2]
  rw [hrhs]
  cases hx : x.parent_id with
  | none =>
    have hzero : ∀ y ∈ (R.filter (isRootRow R)).map fun r =>
        if ((none : Option Nat) == some r.id) = true then List.count x R else 0, y = 0 := by
      intro y hy
      rcases List.mem_map.mp hy with ⟨r, -, rfl⟩
      simp
    rw [List.sum_eq_zero hzero]
    have hroot : isRootRow R x = true := by rw [isRootRow, hx]
    rw [if_neg]
    rintro ⟨-, h2⟩
    rw [hroot] at h2
    simp at h2
  | some pid =>
    have hterm2 : ((R.filter (isRootRow R)).map fun r =>
        if ((some pid : Option Nat) == some r.id) = true then List.count x R else 0) =
        ((R.filter (isRootRow R)).map fun r =>
          if (pid == r.id) = true then List.count x R else 0) := by
      refine List.map_congr_left ?_
      intro r _
      simp
    rw [hterm2, sum_if_id pid (List.count x R) _ hrootsids]
    by_cases hpidR : (R.any fun r => r.id == pid) = true
    · obtain ⟨p, hpmem, hpid⟩ := id_mem_of_any hpidR
      have hxnotroot : isRootRow R x = false := by
        rw [isRootRow, hx]
        simp only
        rw [any_of_id_mem hpmem hpid]
        rfl
      by_cases hproot : isRootRow R p = true
      · -- parent is a root: counted on the left, root of R' on the right
        have hleft : pid ∈ (R.filter (isRootRow R)).map (·.id) :=
          List.mem_map.mpr ⟨p, List.mem_filter.mpr ⟨hpmem, hproot⟩, hpid⟩
        rw [if_pos hleft]
        have hnotR' : ∀ r ∈ (R.filter fun c => !(isRootRow R c)), r.id ≠ pid := by
          intro r hr hre
          have hrmem := List.mem_filter.mp hr
          have : r = p := List.inj_on_of_nodup_map hids hrmem.1 hpmem (hre.trans hpid.symm)
          rw [this, hproot] at hrmem
          simp at hrmem
        have hrootR' : isRootRow (R.filter fun c => !(isRootRow R c)) x = true := by
          rw [isRootRow, hx]
          simp only
          have hanyf : ((R.filter fun c => !(isRootRow R c)).any fun r => r.id == pid)
              = false := by
            rw [List.any_eq_false]
            intro r hr
            simpa using hnotR' r hr
          rw [hanyf]
          rfl
        rw [if_pos ⟨hrootR', by rw [hxnotroot]; rfl⟩]
      · -- parent is a non-root: not counted left, and x is not a root of R'
        have hpR' : p ∈ (R.filter fun c => !(isRootRow R c)) :=
          List.mem_filter.mpr ⟨hpmem, by
            rw [Bool.not_eq_true']
            exact Bool.eq_false_iff.mpr hproot⟩
        have hleft : pid ∉ (R.filter (isRootRow R)).map (·.id) := by
          intro hmem
          rcases List.mem_map.mp hmem with ⟨r, hr, hre⟩
          have hrmem := List.mem_filter.mp hr
          have : r = p := List.inj_on_of_nodup_map hids hrmem.1 hpmem (hre.trans hpid.symm)
          rw [this] at hrmem
          exact hproot hrmem.2
        rw [if_neg hleft]
        rw [if_neg]
        rintro ⟨h1, -⟩
        rw [isRootRow, hx] at h1
        simp only at h1
        rw [any_of_id_mem hpR' hpid] at h1
        simp at h1
    · -- dangling parent id: x is a root of R, hence in neither side
      have hany : (R.any fun r => r.id == pid) = false := by
        rw [Bool.eq_false_iff]
        exact hpidR
      have hroot : isRootRow R x = true := by
        rw [isRootRow, hx]
        simp only
        rw [hany]
        rfl
      have hleft : pid ∉ (R.filter (isRootRow R)).map (·.id) := by
        intro hmem
        rcases List.mem_map.mp hmem with ⟨r, hr, hre⟩
        exact hpidR (any_of_id_mem (List.mem_filter.mp hr).1 hre)
      rw [if_neg hleft, if_neg]
      rintro ⟨-, h2⟩
      rw [hroot] at h2
      simp at h2

theorem childrenPre_nonroot (R : List Category) (i : Nat)
    (hi : ∃ p ∈ R, p.id = i) :
    childrenPre (R.filter fun c => !(isRootRow R c)) i = childrenPre R i := by
  rw [childrenPre, childrenPre, List.filter_filter]
  refine List.filter_congr ?_
  intro a _
  by_cases hpar : (a.parent_id == some i) = true
  · rw [hpar]
    have hnr : isRootRow R a = false := by
      have hpar' : a.parent_id = some i := by simpa using hpar
      rw [isRootRow, hpar']
      simp only
      obtain ⟨p, hp, hpe⟩ := hi
      rw [any_of_id_mem hp hpe]
      rfl
    rw [hnr]
    rfl
  · have hpar' : (a.parent_id == some i) = false := Bool.eq_false_iff.mpr hpar
    rw [hpar']
    simp

theorem childrenPre_mem_nonroot {R : List Category} {i : Nat} {r : Category}
    (hi : ∃ p ∈ R, p.id = i) (hr : r ∈ childrenPre R i) :
    r ∈ R.filter fun c => !(isRootRow R c) := by
  rw [childrenPre, List.mem_filter] at hr
  refine List.mem_filter.mpr ⟨hr.1, ?_⟩
  have hpar : r.parent_id = some i := by simpa using hr.2
  rw [Bool.not_eq_true']
  rw [isRootRow, hpar]
  simp only
  obtain ⟨p, hp, hpe⟩ := hi
  rw [any_of_id_mem hp hpe]
  rfl

theorem descIds_congr (R : List Category) :
    ∀ (fuel : Nat) (c : Category), c ∈ (R.filter fun c => !(isRootRow R c)) →
      descIds R fuel c = descIds (R.filter fun c => !(isRootRow R c)) fuel c := by
  intro fuel
  induction fuel with
  | zero => intro c _; rfl
  | succ f ih =>
    intro c hc
    have hcR : c ∈ R := (List.mem_filter.mp hc).1
    have hex : ∃ p ∈ R, p.id = c.id := ⟨c, hcR, rfl⟩
    rw [descIds, descIds, childrenPre_nonroot R c.id hex]
    congr 1
    refine flatMap_congr ?_
    intro r hr
    exact ih r (childrenPre_mem_nonroot hex hr)

theorem exists_dmin (d : Nat → Nat) :
    ∀ R : List Category, R ≠ [] → ∃ m ∈ R, ∀ c ∈ R, d m.id ≤ d c.id := by
  intro R
  induction R with
  | nil => intro h; exact absurd rfl h
  | cons a R ih =>
    intro _
    by_cases hR : R = []
    · subst hR
      refine ⟨a, List.mem_cons_self a [], ?_⟩
      intro c hc
      have : c = a := by simpa using hc
      rw [this]
    · obtain ⟨m, hm, hmin⟩ := ih hR
      by_cases hda : d a.id ≤ d m.id
      · refine ⟨a, List.mem_cons_self a R, ?_⟩
        intro c hc
        rcases List.mem_cons.mp hc with rfl | hc'
        · exact le_refl _
        · exact le_trans hda (hmin c hc')
      · refine ⟨m, List.mem_cons_of_mem _ hm, ?_⟩
        intro c hc
        rcases List.mem_cons.mp hc with rfl | hc'
        · exact le_of_lt (lt_of_not_le hda)
        · exact hmin c hc'

/-- The forest skeleton rooted at the root layer enumerates every row exactly
once, provided ids are unique and a depth measure orders every parent edge. -/
theorem descIds_forest_perm (d : Nat → Nat) :
    ∀ (n : Nat) (R : List Category) (f : Nat),
      R.length ≤ n → R.length ≤ f →
      (R.map (·.id)).Nodup →
      (∀ c ∈ R, ∀ p ∈ R, c.parent_id = some p.id → d p.id < d c.id) →
      ((R.filter (isRootRow R)).flatMap (descIds R f)).Perm (R.map (·.id)) := by
  intro n
  induction n with
  | zero =>
    intro R f hn _ _ _
    have : R = [] := List.length_eq_zero.mp (Nat.le_zero.mp hn)
    subst this
    simp
  | succ n ih =>
    intro R f hn hf hids hd
    by_cases hRe : R = []
    · subst hRe
      simp
    · cases f with
      | zero =>
        exact absurd (List.length_eq_zero.mp (Nat.le_zero.mp hf)) hRe
      | succ f' =>
        obtain ⟨m, hmem, hmin⟩ := exists_dmin d R hRe
        have hmroot : isRootRow R m = true := by
          rw [isRootRow]
          cases hmp : m.parent_id with
          | none => rfl
          | some pid =>
            simp only
            by_cases hany : (R.any fun r => r.id == pid) = true
            · obtain ⟨p, hp, hpe⟩ := id_mem_of_any hany
              have := hd m hmem p hp (by rw [hmp, hpe])
              have := hmin p hp
              omega
            · rw [Bool.eq_false_iff.mpr hany]
              rfl
        have hrootsne : R.filter (isRootRow R) ≠ [] :=
          List.ne_nil_of_mem (List.mem_filter.mpr ⟨hmem, hmroot⟩)
        have hsplit : (R.filter (isRootRow R) ++
            R.filter fun c => !(isRootRow R c)).Perm R := List.filter_append_perm _ R
        have hlen : (R.filter (isRootRow R)).length +
            (R.filter fun c => !(isRootRow R c)).length = R.length := by
          simpa using hsplit.length_eq
        have hrl : 1 ≤ (R.filter (isRootRow R)).length := by
          cases hfe : R.filter (isRootRow R) with
          | nil => exact absurd hfe hrootsne
          | cons a l => simp
        have hR'n : (R.filter fun c => !(isRootRow R c)).length ≤ n := by omega
        have hR'f : (R.filter fun c => !(isRootRow R c)).length ≤ f' := by omega
        have hR'ids : ((R.filter fun c => !(isRootRow R c)).map (·.id)).Nodup :=
          ((List.filter_sublist R).map _).nodup hids
        have hR'd : ∀ c ∈ (R.filter fun c => !(isRootRow R c)),
            ∀ p ∈ (R.filter fun c => !(isRootRow R c)),
              c.parent_id = some p.id → d p.id < d c.id := by
          intro c hc p hp he
          exact hd c (List.mem_filter.mp hc).1 p (List.mem_filter.mp hp).1 he
        have s1 : (R.filter (isRootRow R)).flatMap (descIds R (f' + 1))
            = (R.filter (isRootRow R)).flatMap
                (fun r => r.id :: (childrenPre R r.id).flatMap (descIds R f')) := by
          refine flatMap_congr ?_
          intro r _
          rw [descIds]
        have s2 : ((R.filter (isRootRow R)).flatMap
            (fun r => r.id :: (childrenPre R r.id).flatMap (descIds R f'))).Perm
            ((R.filter (isRootRow R)).map (·.id) ++
              (R.filter (isRootRow R)).flatMap
                (fun r => (childrenPre R r.id).flatMap (descIds R f'))) :=
          flatMap_cons_perm _ _ _
        have s3 : (R.filter (isRootRow R)).flatMap
              (fun r => (childrenPre R r.id).flatMap (descIds R f'))
            = ((R.filter (isRootRow R)).flatMap
                fun r => childrenPre R r.id).flatMap (descIds R f') := by
          rw [List.flatMap_assoc]
        have s4 : (((R.filter (isRootRow R)).flatMap
              fun r => childrenPre R r.id).flatMap (descIds R f')).Perm
            (((R.filter fun c => !(isRootRow R c)).filter
                (isRootRow (R.filter fun c => !(isRootRow R c)))).flatMap
                  (descIds R f')) :=
          List.Perm.flatMap_right _ (children_of_roots_perm R hids)
        have s5 : ((R.filter fun c => !(isRootRow R c)).filter
              (isRootRow (R.filter fun c => !(isRootRow R c)))).flatMap
                (descIds R f')
            = ((R.filter fun c => !(isRootRow R c)).filter
                (isRootRow (R.filter fun c => !(isRootRow R c)))).flatMap
                  (descIds (R.filter fun c => !(isRootRow R c)) f') := by
          refine flatMap_congr ?_
          intro r hr
          exact descIds_congr R f' r (List.mem_filter.mp hr).1
        have s6 : (((R.filter fun c => !(isRootRow R c)).filter
              (isRootRow (R.filter fun c => !(isRootRow R c)))).flatMap
                (descIds (R.filter fun c => !(isRootRow R c)) f')).Perm
            ((R.filter fun c => !(isRootRow R c)).map (·.id)) :=
          ih (R.filter fun c => !(isRootRow R c)) f' hR'n hR'f hR'ids hR'd
        have s7 : ((R.filter (isRootRow R)).map (·.id) ++
              (R.filter fun c => !(isRootRow R c)).map (·.id))
            = ((R.filter (isRootRow R)) ++
              (R.filter fun c => !(isRootRow R c))).map (·.id) :=
          (List.map_append _ _ _).symm
        have s45 : (((R.filter (isRootRow R)).flatMap
              fun r => childrenPre R r.id).flatMap (descIds R f')).Perm
            ((R.filter fun c => !(isRootRow R c)).map (·.id)) := by
          refine s4.trans ?_
          rw [s5]
          exact s6
        rw [s1]
        refine s2.trans ?_
        rw [s3]
        refine (List.Perm.append_left _ s45).trans ?_
        rw [s7]
        exact hsplit.map _

theorem treeIds_node (i : Nat) (nm sl : Str) (ds : Option Str) (dc so : Int)
    (ch : List CTree) :
    treeIds (CTree.node i nm sl ds dc so ch) = i :: ch.flatMap treeIds := by
  rw [treeIds]
  congr 1
  have h : ch.attach.map (fun x => treeIds x.1) = ch.map treeIds := by simp
  rw [h, List.flatMap_def]

theorem treeIds_build_perm (rows : List Category) :
    ∀ (f : Nat) (c : Category), (treeIds (buildNode rows f c)).Perm (descIds rows f c) := by
  intro f
  induction f with
  | zero =>
    intro c
    rw [buildNode, treeIds_node, descIds]
    simp
  | succ f' ih =>
    intro c
    rw [buildNode, treeIds_node, descIds]
    refine List.Perm.cons _ ?_
    rw [List.flatMap_map]
    refine (List.Perm.flatMap_left _ fun a _ => ih a).trans ?_
    exact List.Perm.flatMap_right _ (List.mergeSort_perm _ _)

theorem rootId_build (rows : List Category) (f : Nat) (c : Category) :
    rootId (buildNode rows f c) = c.id := by
  obtain ⟨ch, he⟩ := buildNode_shape rows f c
  rw [he, rootId]

/-- C7: for any category table with distinct ids whose active rows admit a
depth measure decreasing along parent edges (the parent graph restricted to
active rows is acyclic), `GET /categories/tree` emits every active category's
id exactly once; every level is sorted by `sort_order` ascending with ties
broken by name; and the forest's roots are exactly the active rows whose
`parent_id` is null or names no active row (missing or inactive parent). -/
theorem categoriesTree_spec (cats : List Category) (d : Nat → Nat)
    (hids : ((cats.filter (·.is_active)).map (·.id)).Nodup)
    (hd : ∀ c ∈ cats, c.is_active = true → ∀ p ∈ cats, p.is_active = true →
      c.parent_id = some p.id → d p.id < d c.id) :
    ((categoriesTree cats).flatMap treeIds).Perm
      ((cats.filter (·.is_active)).map (·.id)) ∧
    sortedForest (categoriesTree cats) = true ∧
    ((categoriesTree cats).map rootId).Perm
      (((rowsOf cats).filter (isRootRow (rowsOf cats))).map (·.id)) := by
  have hrows : (rowsOf cats).Perm (cats.filter (·.is_active)) :=
    List.mergeSort_perm _ _
  refine ⟨?_, sortedForest_categoriesTree cats, ?_⟩
  · have hids' : ((rowsOf cats).map (·.id)).Nodup :=
      ((hrows.map (·.id)).nodup_iff).mpr hids
    have hd' : ∀ c ∈ rowsOf cats, ∀ p ∈ rowsOf cats,
        c.parent_id = some p.id → d p.id < d c.id := by
      intro c hc p hp he
      have hc' := List.mem_filter.mp (hrows.subset hc)
      have hp' := List.mem_filter.mp (hrows.subset hp)
      exact hd c hc'.1 hc'.2 p hp'.1 hp'.2 he
    have hmain := descIds_forest_perm d (rowsOf cats).length (rowsOf cats)
      (rowsOf cats).length le_rfl le_rfl hids' hd'
    simp only [categoriesTree]
    rw [List.flatMap_map]
    refine (List.Perm.flatMap_left _ fun a _ =>
      treeIds_build_perm (rowsOf cats) (rowsOf cats).length a).trans ?_
    refine (List.Perm.flatMap_right _ (List.mergeSort_perm _ _)).trans ?_
    exact hmain.trans (hrows.map _)
  · simp only [categoriesTree]
    rw [List.map_map]
    have h1 : (((rowsOf cats).filter (isRootRow (rowsOf cats))).mergeSort catLe).map
          (rootId ∘ buildNode (rowsOf cats) (rowsOf cats).length)
        = (((rowsOf cats).filter (isRootRow (rowsOf cats))).mergeSort catLe).map
          (·.id) := by
      refine List.map_congr_left ?_
      intro a _
      exact rootId_build _ _ a
    rw [h1]
    exact (List.mergeSort_perm _ _).map _

def c7Cats : List Category :=
  [{ id := 1, name := str "Alpha", slug := str "alpha", parent_id := none,
     path := str "root/alpha", is_active := true, featured_only := false,
     desc_product_count := 0, sort_order := 0, description := none },
   { id := 2, name := str "Beta", slug := str "beta", parent_id := some 1,
     path := str "root/alpha/beta", is_active := true, featured_only := false,
     desc_product_count := 0, sort_order := 0, description := none },
   { id := 3, name := str "Gamma", slug := str "gamma", parent_id := none,
     path := str "root/gamma", is_active := false, featured_only := false,
     desc_product_count := 0, sort_order := 0, description := none },
   { id := 4, name := str "Delta", slug := str "delta", parent_id := some 3,
     path := str "root/gamma/delta", is_active := true, featured_only := false,
     desc_product_count := 0, sort_order := 1, description := none }]

theorem categoriesTree_spec_witness :
    ((c7Cats.filter (·.is_active)).map (·.id)).Nodup ∧
    (((categoriesTree c7Cats).flatMap treeIds).Perm
      ((c7Cats.filter (·.is_active)).map (·.id)) ∧
     sortedForest (categoriesTree c7Cats) = true ∧
     ((categoriesTree c7Cats).map rootId).Perm
       (((rowsOf c7Cats).filter (isRootRow (rowsOf c7Cats))).map (·.id))) :=
  ⟨by decide, categoriesTree_spec c7Cats (fun i => i) (by decide) (by decide)⟩

end Laserio
